import Mathlib

/-!
Verification development for the sheet-generator schema pipeline.

The program under study turns a declarative description of a workbook →
sheet → block (list/table) → field hierarchy into JSON-schema-shaped IR and
generated class artifacts.  This file gives a shallow embedding of the parts
of the pipeline relevant to its specification:

* `parseBlocksInSheet` / `parseFieldRow` / `findMetaColumns` — the tabular
  (spreadsheet) extractor (ExcelToSchemaGeneratorUtil, part 1);
* `buildFieldSchema` / `buildTableBlockSchema` / `buildListBlockSchema` /
  `buildJsonSchema` — the schema synthesizer (ExcelToSchemaGeneratorUtil,
  part 2);
* `canon` — the canonical-JSON key-sorting normalizer (toTreeMapRecursive);
* `dedupBlocks` and its two instantiations — the block deduplicators of
  ExcelToSchemaGeneratorUtil and JsonToSchemaGeneratorUtil;
* `resolvePointer` / `resolveIfRef` — SchemaRefResolverUtil;
* `columnSchema` / `deriveJsonSchemaType` — the instance inferrer of
  JsonToSchemaGeneratorUtil;
* `tableRowAccessors` — the positional row accessor generation of
  TableGeneratorUtil.

JSON values are modelled by a mutual inductive family (`Json` / `JsonList` /
`JsonObj`) so that every function below is compiled by structural recursion
and therefore evaluates inside the kernel.  JavaScript objects are modelled
as ordered key/value sequences (JS objects preserve insertion order and the
program relies on that for serialization); JS `undefined` is modelled by
`Option`; JS truthiness by `truthy`.  Numbers are modelled by `Int`: no part
of the pipeline studied here performs non-integral arithmetic (`NaN` and
fractional literals never arise in the claims' scope).  Aliasing of JS
objects is not modelled: the schemas this pipeline manipulates are freshly
built trees.
-/

/-! ### JSON values -/

mutual
/-- A JSON value.  `obj` keeps the insertion order of keys, exactly like a
JavaScript object. -/
inductive Json where
  | null
  | bool (b : Bool)
  | num (n : Int)
  | str (s : String)
  | arr (xs : JsonList)
  | obj (kvs : JsonObj)
  deriving DecidableEq
/-- A JSON array, as its own inductive so that recursion over `Json` is
structural. -/
inductive JsonList where
  | nil
  | cons (hd : Json) (tl : JsonList)
  deriving DecidableEq
/-- The ordered key/value entries of a JSON object. -/
inductive JsonObj where
  | nil
  | cons (key : String) (val : Json) (tl : JsonObj)
  deriving DecidableEq
end

/-- Build a `JsonList` from a Lean list. -/
def jlist : List Json → JsonList
  | [] => .nil
  | x :: xs => .cons x (jlist xs)

/-- Flatten a `JsonList` back to a Lean list. -/
def JsonList.toList : JsonList → List Json
  | .nil => []
  | .cons x xs => x :: xs.toList

/-- Build a `JsonObj` from a list of key/value pairs (in order). -/
def jobj : List (String × Json) → JsonObj
  | [] => .nil
  | (k, v) :: t => .cons k v (jobj t)

/-- The key/value pairs of a `JsonObj`, in order. -/
def JsonObj.toPairs : JsonObj → List (String × Json)
  | .nil => []
  | .cons k v t => (k, v) :: t.toPairs

/-- First value stored under key `k` (JS property read on our ordered-object
model; JS objects cannot actually hold a key twice). -/
def JsonObj.lookup : JsonObj → String → Option Json
  | .nil, _ => none
  | .cons k' v t, k => if k' = k then some v else t.lookup k

/-- Replace the value under key `k` by `f` of it, keeping the entry position
(JS in-place property assignment on an existing key). -/
def JsonObj.modifyVal : JsonObj → String → (Json → Json) → JsonObj
  | .nil, _, _ => .nil
  | .cons k' v t, k, f => .cons k' (if k' = k then f v else v) (t.modifyVal k f)

/-- The keys of a `JsonObj`, in order. -/
def JsonObj.keys : JsonObj → List String
  | .nil => []
  | .cons k _ t => k :: t.keys

/-- Set key `k` to `v`: overwrite in place if present (keeping its position),
append otherwise — JS `o[k] = v`. -/
def JsonObj.setKey : JsonObj → String → Json → JsonObj
  | .nil, k, v => .cons k v .nil
  | .cons k' v' t, k, v => if k' = k then .cons k' v t else .cons k' v' (t.setKey k v)

/-- JavaScript truthiness of a JSON value (`NaN` does not arise: numbers are
integral here). -/
def truthy : Json → Bool
  | .null => false
  | .bool b => b
  | .num n => n != 0
  | .str s => s != ""
  | .arr _ => true
  | .obj _ => true

/-- JS property access `j[k]`: `undefined` (`none`) unless `j` is an object
holding `k`.  (Property access on a non-null primitive also yields
`undefined` for the keys used by this program.) -/
def anyField (j : Json) (k : String) : Option Json :=
  match j with
  | .obj o => o.lookup k
  | _ => none

/-- JS `j[k]` filtered by truthiness: `some v` only when the property exists
and is truthy.  Models the `if (!x) ...` guards of the source. -/
def truthyField (j : Json) (k : String) : Option Json :=
  match anyField j k with
  | some v => if truthy v then some v else none
  | none => none

/-- JS `a || d` where `a` is an optional property value. -/
def jsOr (a : Option Json) (d : Json) : Json :=
  match a with
  | some v => if truthy v then v else d
  | none => d

/-! ### Character-level string utilities

Lean's built-in `String.trim`, `endsWith`, `toLower`, `splitOn`, … are
implemented over byte iterators and do not reduce inside the kernel, so the
JS string operations used by the program are modelled directly over the
character list `String.data`.  They agree with the JavaScript originals on
the ASCII data this pipeline manipulates. -/

/-- Whitespace for `String.prototype.trim` (the characters that occur in
spreadsheet cells). -/
def charIsWs (c : Char) : Bool :=
  c == ' ' || c == '\t' || c == '\n' || c == '\r'

/-- JS `s.trim()`. -/
def sTrim (s : String) : String :=
  String.mk (((s.data.dropWhile charIsWs).reverse.dropWhile charIsWs).reverse)

/-- Does the first character list lead (start) the second? -/
def listLeads : List Char → List Char → Bool
  | [], _ => true
  | _ :: _, [] => false
  | p :: ps, c :: cs => p == c && listLeads ps cs

/-- JS `s.startsWith(p)`. -/
def sStartsWith (s p : String) : Bool :=
  listLeads p.data s.data

/-- JS `s.endsWith(p)`. -/
def sEndsWith (s p : String) : Bool :=
  listLeads p.data.reverse s.data.reverse

/-- ASCII lower-casing of one character (`String.prototype.toLowerCase` on
the ASCII cell data in scope). -/
def lowerChar (c : Char) : Char :=
  if 65 ≤ c.toNat ∧ c.toNat ≤ 90 then Char.ofNat (c.toNat + 32) else c

/-- JS `s.toLowerCase()` (ASCII). -/
def sToLower (s : String) : String :=
  String.mk (s.data.map lowerChar)

/-- Split a character list at a separator character; like JS
`String.prototype.split` this yields `[""]` on the empty string and keeps
empty segments. -/
def splitAtChar (sep : Char) : List Char → List (List Char)
  | [] => [[]]
  | c :: cs =>
    if c == sep then [] :: splitAtChar sep cs
    else
      match splitAtChar sep cs with
      | t :: ts => (c :: t) :: ts
      | [] => [[c]]

/-- JS `s.split(sep)` for a one-character separator. -/
def sSplitOnChar (sep : Char) (s : String) : List String :=
  (splitAtChar sep s.data).map String.mk

/-- JS `s.substring(n)` (scalar positions; the pointers in scope are ASCII). -/
def sDropLeft (s : String) (n : Nat) : String :=
  String.mk (s.data.drop n)

/-- Decimal rendering of an integer, as JS `String(n)` for integral numbers. -/
def intRepr : Int → String
  | .ofNat m => Nat.repr m
  | .negSucc m => "-" ++ Nat.repr (m + 1)

/-- Parse a (possibly negated) run of decimal digits; models the JS
`Number(s)` / `parseFloat` / `parseInt` combination of `buildFieldSchema` on
the integral bound literals in scope (`Number` accepts more forms — floats,
exponents — which never occur in the claims studied here). -/
def decDigits? : List Char → Option Nat
  | [] => none
  | [c] => if c.isDigit then some (c.toNat - 48) else none
  | c :: cs =>
    match decDigits? cs, c.isDigit with
    | some n, true => some ((c.toNat - 48) * 10 ^ cs.length + n)
    | _, _ => none

/-- Integer-literal reading of a cell, `none` when the cell is not an
integer literal (the `Number.isNaN(Number(x))` guard). -/
def jsNumber? (s : String) : Option Int :=
  match s.data with
  | '-' :: cs => (decDigits? cs).map (fun n => -(n : Int))
  | cs => (decDigits? cs).map (fun n => (n : Int))

/-! ### Tabular extractor (ExcelToSchemaGeneratorUtil, part 1)

A sheet is modelled as its grid of cells after the source's
`(cell || "").toString()` coercion: a `List (List String)` in which an
absent or JS-falsy cell is the empty string. -/

/-- One parsed field row (interface `BlockField` of the source —
all columns are carried as trimmed cell strings). -/
structure BlockField where
  fieldName : String
  nullAllowed : String
  type : String
  minimum : String
  maximum : String
  minLength : String
  maxLength : String
  pattern : String
  enumValues : String
  description : String
  examples : String
  deriving DecidableEq

/-- One parsed block (interface `BlockModel`): a name, the literal entity
tag `"list"` or `"table"`, and the field rows in order. -/
structure BlockModel where
  name : String
  entity : String
  fields : List BlockField
  deriving DecidableEq

/-- A sheet of the parsed workbook model. -/
structure SheetModel where
  name : String
  entity : String
  blocks : List BlockModel
  deriving DecidableEq

/-- The parsed workbook model. -/
structure WorkbookModel where
  name : String
  entity : String
  sheets : List SheetModel
  deriving DecidableEq

/-- Column indices discovered by the meta-header row (`findMetaColumns`):
for each recognized token, the index of the column holding it.  A repeated
token keeps the last column, as the source's `forEach` assignment does. -/
structure MetaCols where
  null_allowed : Option Nat := none
  type : Option Nat := none
  minimum : Option Nat := none
  maximum : Option Nat := none
  minLength : Option Nat := none
  maxLength : Option Nat := none
  pattern : Option Nat := none
  enum : Option Nat := none
  description : Option Nat := none
  examples : Option Nat := none
  deriving DecidableEq

/-- Record one meta-header cell (`findMetaColumns` loop body): trims,
lower-cases and matches against the fixed vocabulary. -/
def recordMetaCell (m : MetaCols) (cell : String) (index : Nat) : MetaCols :=
  let lowerVal := sToLower (sTrim cell)
  if lowerVal = "null_allowed" then { m with null_allowed := some index }
  else if lowerVal = "type" then { m with type := some index }
  else if lowerVal = "minimum" then { m with minimum := some index }
  else if lowerVal = "maximum" then { m with maximum := some index }
  else if lowerVal = "minlength" then { m with minLength := some index }
  else if lowerVal = "maxlength" then { m with maxLength := some index }
  else if lowerVal = "pattern" then { m with pattern := some index }
  else if lowerVal = "enum" then { m with enum := some index }
  else if lowerVal = "description" then { m with description := some index }
  else if lowerVal = "examples" then { m with examples := some index }
  else m

/-- The source's `findMetaColumns`: scan the meta-header row left to right. -/
def findMetaColumns (metaHeaderRow : List String) : MetaCols :=
  (metaHeaderRow.enum).foldl (fun m p => recordMetaCell m p.2 p.1) {}

/-- The `getSafeVal` helper of `parseFieldRow`: empty string when the column
was not identified, else the trimmed cell at that column (absent cell =
empty). -/
def getSafeVal (row : List String) (idx : Option Nat) : String :=
  match idx with
  | none => ""
  | some i => sTrim (row.getD i "")

/-- The source's `parseFieldRow`. -/
def parseFieldRow (row : List String) (metaCols : MetaCols) : BlockField where
  fieldName := sTrim (row.getD 0 "")
  nullAllowed := getSafeVal row metaCols.null_allowed
  type := getSafeVal row metaCols.type
  minimum := getSafeVal row metaCols.minimum
  maximum := getSafeVal row metaCols.maximum
  minLength := getSafeVal row metaCols.minLength
  maxLength := getSafeVal row metaCols.maxLength
  pattern := getSafeVal row metaCols.pattern
  enumValues := getSafeVal row metaCols.enum
  description := getSafeVal row metaCols.description
  examples := getSafeVal row metaCols.examples

/-- The source's `isBlankRow`: all cells trim to empty. -/
def isBlankRow (row : List String) : Bool :=
  row.all (fun cell => (sTrim cell).length = 0)

/-- Does this trimmed first cell start a block (`"..._list"` or
`"..._table"`)? -/
def isBlockHeading (firstCellVal : String) : Bool :=
  sEndsWith firstCellVal "_list" || sEndsWith firstCellVal "_table"

/-- The inner field-gathering loop of `parseBlocksInSheet`: consume field
rows until a blank row (consumed), a fresh block heading (left in place), or
the end of the sheet.  Returns the fields and the remaining rows. -/
def parseFields (metaCols : MetaCols) : List (List String) → List BlockField × List (List String)
  | [] => ([], [])
  | row :: rest =>
    if isBlankRow row then ([], rest)
    else if isBlockHeading (sTrim (row.getD 0 "")) then ([], row :: rest)
    else
      let r := parseFields metaCols rest
      (parseFieldRow row metaCols :: r.1, r.2)

/-- The outer row scan of `parseBlocksInSheet`, written with explicit fuel so
that the recursion is structural; `parseBlocksInSheet` supplies fuel equal to
the number of rows, which `parseBlocksGo_fuel` below proves sufficient (every
iteration of the source's `while` loop advances `currentRow`). -/
def parseBlocksGo : Nat → List (List String) → List BlockModel
  | 0, _ => []
  | _, [] => []
  | fuel + 1, row :: rest =>
    let firstCellVal := sTrim (row.getD 0 "")
    if isBlockHeading firstCellVal then
      let metaCols := findMetaColumns (rest.headD [])
      let r := parseFields metaCols (rest.drop 1)
      { name := firstCellVal,
        entity := if sEndsWith firstCellVal "_list" then "list" else "table",
        fields := r.1 : BlockModel } :: parseBlocksGo fuel r.2
    else
      parseBlocksGo fuel rest

/-- The source's `parseBlocksInSheet`: scan the sheet grid for blocks. -/
def parseBlocksInSheet (sheetData : List (List String)) : List BlockModel :=
  parseBlocksGo sheetData.length sheetData

/-! ### Schema synthesizer (ExcelToSchemaGeneratorUtil, part 2) -/

/-- The source's enum-cell split `split(/\s*,\s*/)` applied to an already
trimmed cell: split on commas, trimming around each comma. -/
def splitEnumCell (s : String) : List String :=
  (sSplitOnChar ',' s).map sTrim

/-- The source's `buildFieldSchema`: one JSON-schema constraint object per
field, with keys inserted in the source's order. -/
def buildFieldSchema (bf : BlockField) : Json :=
  let typePart : List (String × Json) :=
    if bf.type ≠ "" then
      if bf.nullAllowed ≠ "" ∧ sToLower bf.nullAllowed = "no" then
        [("type", .str bf.type)]
      else
        [("type", .arr (jlist [.str bf.type, .str "null"]))]
    else
      [("type", .str "string")]
  let minPart : List (String × Json) :=
    match bf.minimum != "", jsNumber? bf.minimum with
    | true, some n => [("minimum", .num n)]
    | _, _ => []
  let maxPart : List (String × Json) :=
    match bf.maximum != "", jsNumber? bf.maximum with
    | true, some n => [("maximum", .num n)]
    | _, _ => []
  let minLenPart : List (String × Json) :=
    match bf.minLength != "", jsNumber? bf.minLength with
    | true, some n => [("minLength", .num n)]
    | _, _ => []
  let maxLenPart : List (String × Json) :=
    match bf.maxLength != "", jsNumber? bf.maxLength with
    | true, some n => [("maxLength", .num n)]
    | _, _ => []
  let patternPart : List (String × Json) :=
    if bf.pattern ≠ "" then [("pattern", .str bf.pattern)] else []
  let enumPart : List (String × Json) :=
    if bf.enumValues ≠ "" then
      [("enum", .arr (jlist ((splitEnumCell bf.enumValues).map Json.str)))]
    else []
  let descPart : List (String × Json) :=
    if bf.description ≠ "" then [("description", .str bf.description)] else []
  let examplesPart : List (String × Json) :=
    if bf.examples ≠ "" then [("examples", .arr (jlist [.str bf.examples]))] else []
  .obj (jobj (typePart ++ minPart ++ maxPart ++ minLenPart ++ maxLenPart ++
    patternPart ++ enumPart ++ descPart ++ examplesPart))

/-- A one-string enum constraint (`{ type: "string", enum: [s] }`). -/
def singleStringEnum (s : String) : Json :=
  .obj (jobj [("type", .str "string"), ("enum", .arr (jlist [.str s]))])

/-- The source's `buildTableBlockSchema`. -/
def buildTableBlockSchema (block : BlockModel) : Json :=
  let headerItems := block.fields.map (fun f => singleStringEnum f.fieldName)
  let headerSize : Int := headerItems.length
  let headerSchema : Json :=
    .obj (jobj [("type", .str "array"), ("items", .arr (jlist headerItems)),
      ("additionalItems", .bool false), ("minItems", .num headerSize),
      ("maxItems", .num headerSize)])
  let columnSchemas := block.fields.map buildFieldSchema
  let rowItemsSchema : Json :=
    .obj (jobj [("type", .str "array"), ("items", .arr (jlist columnSchemas)),
      ("additionalItems", .bool false), ("minItems", .num headerSize),
      ("maxItems", .num headerSize)])
  .obj (jobj [("type", .str "object"),
    ("properties", .obj (jobj [
      ("name", .obj (jobj [("type", .str "string"),
        ("enum", .arr (jlist [.str block.name]))])),
      ("@entity", .obj (jobj [("type", .str "string"),
        ("enum", .arr (jlist [.str "table"]))])),
      ("header", headerSchema),
      ("rows", .obj (jobj [("type", .str "array"), ("items", rowItemsSchema)]))])),
    ("required", .arr (jlist [.str "name", .str "@entity", .str "header", .str "rows"]))])

/-- The source's `buildListBlockSchema`; a repeated field name overwrites the
earlier property in place, as JS object assignment does. -/
def buildListBlockSchema (block : BlockModel) : Json :=
  let itemProps := block.fields.foldl
    (fun acc bf => acc.setKey bf.fieldName (buildFieldSchema bf)) JsonObj.nil
  .obj (jobj [("type", .str "object"),
    ("properties", .obj (jobj [
      ("name", .obj (jobj [("type", .str "string"),
        ("enum", .arr (jlist [.str block.name]))])),
      ("@entity", .obj (jobj [("type", .str "string"),
        ("enum", .arr (jlist [.str "list"]))])),
      ("items", .obj (jobj [("type", .str "array"),
        ("items", .obj (jobj [("type", .str "object"),
          ("properties", .obj itemProps),
          ("additionalProperties", .bool false)]))]))])),
    ("required", .arr (jlist [.str "name", .str "@entity", .str "items"]))])

/-- The source's `buildSheetSchema`. -/
def buildSheetSchema (sheet : SheetModel) : Json :=
  .obj (jobj [("type", .str "object"),
    ("properties", .obj (jobj [
      ("name", .obj (jobj [("type", .str "string"),
        ("enum", .arr (jlist [.str sheet.name]))])),
      ("@entity", .obj (jobj [("type", .str "string"),
        ("enum", .arr (jlist [.str sheet.entity]))])),
      ("blocks", .obj (jobj [("type", .str "array"),
        ("items", .obj (jobj [("oneOf", .arr (jlist (sheet.blocks.map
          (fun b => if b.entity = "list" then buildListBlockSchema b
                    else buildTableBlockSchema b))))]))]))])),
    ("required", .arr (jlist [.str "name", .str "@entity", .str "blocks"]))])

/-- The source's `buildJsonSchema` (the `$schema` header string is carried
verbatim). -/
def buildJsonSchema (workbook : WorkbookModel) : Json :=
  .obj (jobj [("$schema", .str "http://json-schema.org/draft-07/schema#"),
    ("type", .str "object"),
    ("properties", .obj (jobj [
      ("name", .obj (jobj [("type", .str "string"),
        ("enum", .arr (jlist [.str workbook.name]))])),
      ("@entity", .obj (jobj [("type", .str "string"),
        ("enum", .arr (jlist [.str workbook.entity]))])),
      ("sheets", .obj (jobj [("type", .str "array"),
        ("items", .obj (jobj [("oneOf", .arr (jlist (workbook.sheets.map
          buildSheetSchema)))]))]))])),
    ("required", .arr (jlist [.str "name", .str "@entity", .str "sheets"]))])

example :
    parseBlocksInSheet [["employee_table"], ["name", "null_allowed", "type"],
      ["id", "No", "number"], ["label", "Yes", "string"]] =
    [{ name := "employee_table", entity := "table", fields := [
      { fieldName := "id", nullAllowed := "No", type := "number", minimum := "",
        maximum := "", minLength := "", maxLength := "", pattern := "",
        enumValues := "", description := "", examples := "" },
      { fieldName := "label", nullAllowed := "Yes", type := "string", minimum := "",
        maximum := "", minLength := "", maxLength := "", pattern := "",
        enumValues := "", description := "", examples := "" }] }] := by decide

/-! ### Canonical JSON (toCanonicalJson / toTreeMapRecursive)

The source detects structural equality of block schemas by serializing a
recursively key-sorted copy (`JSON.stringify(toTreeMapRecursive(x))`) and
comparing the strings.  `JSON.stringify` is injective on JSON values (its
escaping is unambiguous) and deterministic, so equality of the canonical
strings is equality of the key-sorted values; the embedding therefore works
with the key-sorted value `canon x` directly and keeps a `stringifyJson`
only where the character codes of the serialization matter (the definition
name hash of the instance-inference deduplicator). -/

/-- Lexicographic comparison of character lists by code point (the JS
default `Array.prototype.sort()` string order on the ASCII keys in scope). -/
def charListLe : List Char → List Char → Bool
  | [], _ => true
  | _ :: _, [] => false
  | c :: cs, d :: ds =>
    if c.toNat < d.toNat then true
    else if d.toNat < c.toNat then false
    else charListLe cs ds

/-- Ordering of object entries by key, used for canonical key sorting. -/
def keyLe (a b : String × Json) : Prop :=
  charListLe a.1.data b.1.data = true

instance : DecidableRel keyLe := fun a b =>
  inferInstanceAs (Decidable (charListLe a.1.data b.1.data = true))

/-- Sort object entries by key (`Object.keys(value).sort()` rebuilding the
object in sorted-key order; keys of a JS object are distinct, so which stable
sort is used is immaterial). -/
def sortPairs (l : List (String × Json)) : List (String × Json) :=
  l.insertionSort keyLe

mutual
/-- The source's `toTreeMapRecursive`: recursively sort all object keys,
keeping array order. -/
def canon : Json → Json
  | .null => .null
  | .bool b => .bool b
  | .num n => .num n
  | .str s => .str s
  | .arr xs => .arr (canonList xs)
  | .obj kvs => .obj (jobj (sortPairs (canonObj kvs).toPairs))
  termination_by structural j => j
/-- `toTreeMapRecursive` on the elements of an array. -/
def canonList : JsonList → JsonList
  | .nil => .nil
  | .cons x xs => .cons (canon x) (canonList xs)
  termination_by structural l => l
/-- `toTreeMapRecursive` on the values of an object (before key sorting). -/
def canonObj : JsonObj → JsonObj
  | .nil => .nil
  | .cons k v t => .cons k (canon v) (canonObj t)
  termination_by structural o => o
end

/-- Hex digit for JSON string escapes. -/
def hexDigit (n : Nat) : Char :=
  if n < 10 then Char.ofNat (48 + n) else Char.ofNat (87 + (n - 10))

/-- JSON.stringify escaping of one string character. -/
def escapeChar (c : Char) : List Char :=
  if c == '"' then ['\\', '"']
  else if c == '\\' then ['\\', '\\']
  else if c == '\n' then ['\\', 'n']
  else if c == '\t' then ['\\', 't']
  else if c == '\r' then ['\\', 'r']
  else if c.toNat < 32 then
    ['\\', 'u', '0', '0', hexDigit (c.toNat / 16), hexDigit (c.toNat % 16)]
  else [c]

/-- JSON.stringify of a string literal. -/
def stringifyStr (s : String) : String :=
  String.mk ('"' :: (s.data.foldr (fun c acc => escapeChar c ++ acc) ['"']))

mutual
/-- `JSON.stringify` (compact form, as the deduplicators call it).  Numbers
are integral in scope, so their rendering is plain decimal. -/
def stringifyJson : Json → String
  | .null => "null"
  | .bool true => "true"
  | .bool false => "false"
  | .num n => intRepr n
  | .str s => stringifyStr s
  | .arr xs => "[" ++ stringifyList xs ++ "]"
  | .obj kvs => "\x7b" ++ stringifyObj kvs ++ "\x7d"
  termination_by structural j => j
/-- Comma-separated serialization of array elements. -/
def stringifyList : JsonList → String
  | .nil => ""
  | .cons x .nil => stringifyJson x
  | .cons x (.cons y t) => stringifyJson x ++ "," ++ stringifyList (.cons y t)
  termination_by structural l => l
/-- Comma-separated serialization of object entries. -/
def stringifyObj : JsonObj → String
  | .nil => ""
  | .cons k v .nil => stringifyStr k ++ ":" ++ stringifyJson v
  | .cons k v (.cons k' v' t) =>
    stringifyStr k ++ ":" ++ stringifyJson v ++ "," ++ stringifyObj (.cons k' v' t)
  termination_by structural o => o
end

/-- The source's `toCanonicalJson`: serialize the key-sorted copy. -/
def toCanonicalJson (j : Json) : String :=
  stringifyJson (canon j)

/-- Sum of the code units of a string (the instance-inference hash
`canonical.split('').reduce((acc, c) => acc + c.charCodeAt(0), 0)`; on the
basic-plane data in scope a code unit is the code point.  The summands are
non-negative, so the source's `Math.abs` is the identity here). -/
def charSum (s : String) : Nat :=
  s.data.foldl (fun a c => a + c.toNat) 0

/-! ### Block deduplication (deduplicateBlocks of both front-ends)

Both deduplicators locate block slots at the fixed path
`properties → sheets → items → oneOf → [sheet] → properties → blocks →
items → oneOf → [block]` with the truthiness / `|| {}` / `Array.isArray`
guards of `findAllBlockSchemas`, count occurrences keyed by a canonical
string, hoist the repeated ones into a definitions map, and overwrite each
repeated slot in place with a `$ref`.  The two front-ends differ only in the
canonical key (key-sorted for the spreadsheet front-end, the literal value
for the instance front-end) and in the derivation of the definition name. -/

/-- A local reference node (`{ "$ref": "#/definitions/<name>" }`). -/
def mkRef (defName : String) : Json :=
  .obj (.cons "$ref" (.str ("#/definitions/" ++ defName)) .nil)

/-- The `oneOf` list of an `items` value, when it is an array
(`Array.isArray` guard of `findAllBlockSchemas`). -/
def oneOfArrOf (items : Json) : Option JsonList :=
  match anyField items "oneOf" with
  | some (.arr l) => some l
  | _ => none

/-- The alternation list at `properties.<childKey>.items.oneOf` under the
guards of `findAllBlockSchemas` (`!props` / `!child` truthiness bail-outs,
`items || {}`, `Array.isArray(oneOf)`). -/
def pathOneOf (childKey : String) (j : Json) : Option JsonList :=
  match truthyField j "properties" with
  | none => none
  | some props =>
    match truthyField props childKey with
    | none => none
    | some child => oneOfArrOf (jsOr (anyField child "items") (.obj .nil))

/-- The sheet alternation of a root schema:
`rootSchema.properties.sheets.items.oneOf`. -/
def sheetsOneOfOf (root : Json) : Option JsonList :=
  pathOneOf "sheets" root

/-- The block alternation of one sheet schema:
`sheetSchema.properties.blocks.items.oneOf`. -/
def blocksOneOfOf (sheet : Json) : Option JsonList :=
  pathOneOf "blocks" sheet

/-- All block slots of the schema, in sheet order then slot order —
`findAllBlockSchemas` flattened to the slot contents. -/
def collectBlockSlots (root : Json) : List Json :=
  match sheetsOneOfOf root with
  | none => []
  | some sheets =>
    sheets.toList.flatMap (fun s =>
      match blocksOneOfOf s with
      | none => []
      | some l => l.toList)

/-- Apply `f` to the value under key `k` of an object, leaving any other
shape unchanged. -/
def jmodify (k : String) (f : Json → Json) : Json → Json
  | .obj o => .obj (o.modifyVal k f)
  | j => j

/-- Map over a `JsonList`. -/
def jlMap (f : Json → Json) : JsonList → JsonList
  | .nil => .nil
  | .cons x xs => .cons (f x) (jlMap f xs)

/-- Apply `f` to every element of an array value, leaving any other shape
unchanged. -/
def mapIfArr (f : Json → Json) : Json → Json
  | .arr l => .arr (jlMap f l)
  | j => j

/-- Rewrite the alternation at `properties.<childKey>.items.oneOf` in place
by `g`, leaving a value whose guards fail untouched (the functional image of
the deduplicators' in-place array-slot assignment, which mutates the `oneOf`
array reached through that path). -/
def updateOneOf (childKey : String) (g : Json → Json) (j : Json) : Json :=
  match pathOneOf childKey j with
  | none => j
  | some _ =>
    jmodify "properties" (jmodify childKey (jmodify "items" (jmodify "oneOf" (mapIfArr g)))) j

/-- Rewrite the block slots of one sheet schema in place by `f`. -/
def replaceBlocksOneOf (f : Json → Json) (sheet : Json) : Json :=
  updateOneOf "blocks" f sheet

/-- Rewrite every block slot of the root schema in place by `f`. -/
def mapBlockSlots (f : Json → Json) (root : Json) : Json :=
  updateOneOf "sheets" (replaceBlocksOneOf f) root

/-- Keys of a JS `Map` in first-insertion order: the iteration order of the
deduplicators' usage-count maps. -/
def firstOcc (l : List Json) : List Json :=
  l.foldl (fun acc k => if k ∈ acc then acc else acc ++ [k]) []

/-- JS object property write on the definitions object: overwrite in place
when the key exists, append otherwise. -/
def upsertDef : List (String × Json) → String → Json → List (String × Json)
  | [], n, v => [(n, v)]
  | p :: t, n, v => if p.1 = n then (n, v) :: t else p :: upsertDef t n v

/-- JS object property read on the definitions object. -/
def lookupDef : List (String × Json) → String → Option Json
  | [], _ => none
  | p :: t, n => if p.1 = n then some p.2 else lookupDef t n

/-- The canonical keys of all block slots, in slot order (the usage-count
pass of `deduplicateBlocks`). -/
def dedupKeyed (key : Json → Json) (root : Json) : List Json :=
  (collectBlockSlots root).map key

/-- The canonical keys occurring more than once, in first-occurrence order
(the iteration of the usage-count map filtered to `count > 1`). -/
def dedupRepeatedKeys (key : Json → Json) (root : Json) : List Json :=
  (firstOcc (dedupKeyed key root)).filter (fun k => 1 < (dedupKeyed key root).count k)

/-- The shared shape of both `deduplicateBlocks` implementations,
parameterized by the canonical key (`key`) and the definition-name
derivation (`defName`).  Returns the rewritten schema and the definitions
map.  A canonical key occurring more than once becomes a definition whose
stored value is the key itself — in the spreadsheet front-end the stored
`fromCanonicalJson(canonical)` is the key-sorted value, in the instance
front-end `JSON.parse(canonical)` is the block itself. -/
def dedupBlocks (key : Json → Json) (defName : Json → String) (root : Json) :
    Json × List (String × Json) :=
  let defs := (dedupRepeatedKeys key root).foldl
    (fun acc k => upsertDef acc (defName k) k) []
  let newRoot := mapBlockSlots
    (fun b => if 1 < (dedupKeyed key root).count (key b) then mkRef (defName (key b)) else b)
    root
  (newRoot, defs)

/-- An empty object value. -/
def emptyObj : Json := .obj .nil

/-- JS string interpolation `${v}` of a JSON value, to the extent the
pipeline exercises it (definition names are strings in every schema the
generators build; the array case is exact only for the empty array and is
never reached there). -/
def jsToDisplay : Json → String
  | .null => "null"
  | .bool true => "true"
  | .bool false => "false"
  | .num n => intRepr n
  | .str s => s
  | .arr _ => ""
  | .obj _ => "[object Object]"

/-- Definition-name derivation of the spreadsheet deduplicator: the block's
literal name enumeration (`blockMap.properties.name.enum[0]`), with `"Block"`
as fallback for a missing or falsy name (`blockNameEnum[0] || "Block"`). -/
def excelDefName (blockMap : Json) : String :=
  let props := jsOr (anyField blockMap "properties") emptyObj
  let nameProp := jsOr (anyField props "name") emptyObj
  let blockNameEnum : List Json :=
    match anyField nameProp "enum" with
    | some (.arr l) => l.toList
    | _ => []
  match blockNameEnum.head? with
  | some v => if truthy v then jsToDisplay v else "Block"
  | none => "Block"

/-- Definition-name derivation of the instance-inference deduplicator:
`blockSchema.properties.name.enum[0]` followed by `_` and the decimal
rendering of the char-code sum of the canonical string.  The source performs
the three property reads unguarded and would throw a `TypeError` were one
`undefined`; every block schema this deduplicator receives is synthesized by
`generate` and carries its name enumeration, so the `"undefined"` branch
below (mirroring JS interpolation of an `undefined` element read) is not
reached from `generate`. -/
def jsonDefName (blockSchema : Json) : String :=
  let nameVal : Option Json :=
    match anyField blockSchema "properties" with
    | some props =>
      match anyField props "name" with
      | some nameProp =>
        match anyField nameProp "enum" with
        | some (.arr l) => l.toList.head?
        | _ => none
      | none => none
    | none => none
  (match nameVal with
   | some v => jsToDisplay v
   | none => "undefined") ++ "_" ++ Nat.repr (charSum (stringifyJson blockSchema))

/-- The three unguarded property reads of `jsonDefName` all succeed: the
condition under which the instance-inference deduplicator does not throw a
`TypeError` while deriving a definition name.  Every block synthesized by
`JsonToSchemaGeneratorUtil.generate` satisfies it. -/
def jsonNameOk (b : Json) : Bool :=
  ((((anyField b "properties").bind (fun props => anyField props "name")).bind
    (fun nameProp => anyField nameProp "enum"))).isSome

/-- `ExcelToSchemaGeneratorUtil.deduplicateBlocks`: canonical key is the
key-sorted value. -/
def excelDeduplicateBlocks (root : Json) : Json × List (String × Json) :=
  dedupBlocks canon excelDefName root

/-- `JsonToSchemaGeneratorUtil.deduplicateBlocks`: canonical key is the
literal serialization, i.e. the value itself. -/
def jsonDeduplicateBlocks (root : Json) : Json × List (String × Json) :=
  dedupBlocks id jsonDefName root

/-- Attach a non-empty definitions map to the schema
(`if (Object.keys(definitions).length > 0) schema.definitions = definitions`;
the key `definitions` is new, so the JS property write appends it). -/
def attachDefinitions (schema : Json) (defs : List (String × Json)) : Json :=
  if defs.isEmpty then schema
  else
    match schema with
    | .obj o => .obj (o.setKey "definitions" (.obj (jobj defs)))
    | j => j

/-- The workbook model built by `parseExcelToModel` from the sheet grids of
a workbook file (the file read itself — SheetJS — is outside the model: each
sheet arrives as its name and its grid of stringified cells). -/
def parseExcelToModel (name : String) (sheets : List (String × List (List String))) :
    WorkbookModel where
  name := name
  entity := "workbook"
  sheets := sheets.map (fun p =>
    { name := p.1, entity := "sheet", blocks := parseBlocksInSheet p.2 })

/-- `ExcelToSchemaGeneratorUtil.generate`: parse, build, deduplicate, attach
definitions when any were found. -/
def excelGenerate (name : String) (sheets : List (String × List (List String))) : Json :=
  let schema := buildJsonSchema (parseExcelToModel name sheets)
  let r := excelDeduplicateBlocks schema
  attachDefinitions r.1 r.2

/-! ### Reference resolution (SchemaRefResolverUtil) -/

/-- The outcome of `resolveIfRef`: a returned node, one of the two thrown
errors (carrying the thrown message), or exhaustion of the step budget —
the source's `while` loop has no cycle guard, so the embedding makes the
budget explicit. -/
inductive ResolveOutcome where
  | ok (node : Option Json)
  | unsupportedRef (msg : String)
  | unresolvedPointer (msg : String)
  | fuelOut
  deriving DecidableEq

/-- Message of the non-local-reference error. -/
def unsupportedRefMsg (r : String) : String :=
  "Unsupported $ref format (expected local ref): " ++ r

/-- Message of the unresolvable-pointer error; it names the pointer. -/
def unresolvedPointerMsg (p : String) : String :=
  "Could not resolve pointer: " ++ p

/-- The `node.$ref` loop condition: the `$ref` property when present and
truthy (an empty `$ref` string is falsy and ends the loop).  The `$ref` of a
`JsonSchema` is a string; a non-string value under that key is outside the
typed interface and treated as absent. -/
def getRef (node : Json) : Option String :=
  match anyField node "$ref" with
  | some (.str s) => if s = "" then none else some s
  | _ => none

/-- Result of `resolvePointer`: the reached node, or the thrown error
carrying the pointer it names. -/
inductive PtrResult where
  | ok (node : Json)
  | error (pointer : String)
  deriving DecidableEq

/-- The segment walk of `resolvePointer`: `current = current[part];
if (!current) throw`.  An absent key — including any read on a non-object,
per the spec only literal mapping keys are supported — and a falsy value
alike abort with the error naming the full pointer. -/
def resolvePointerGo (pointer : String) : List String → Json → PtrResult
  | [], current => .ok current
  | part :: parts, current =>
    match anyField current part with
    | none => .error pointer
    | some v => if truthy v then resolvePointerGo pointer parts v else .error pointer

/-- The source's `resolvePointer`: split on `/` and walk. -/
def resolvePointer (pointer : String) (rootSchema : Json) : PtrResult :=
  resolvePointerGo pointer (sSplitOnChar '/' pointer) rootSchema

/-- The `while (node.$ref)` loop of `resolveIfRef`, with an explicit step
budget (each budget unit is one pointer dereference). -/
def resolveIfRefGo : Nat → Json → Json → ResolveOutcome
  | fuel, node, rootSchema =>
    match getRef node with
    | none => .ok (some node)
    | some r =>
      if sStartsWith r "#/" then
        match fuel with
        | 0 => .fuelOut
        | fuel + 1 =>
          match resolvePointer (sDropLeft r 2) rootSchema with
          | PtrResult.ok next => resolveIfRefGo fuel next rootSchema
          | PtrResult.error p => .unresolvedPointer (unresolvedPointerMsg p)
      else .unsupportedRef (unsupportedRefMsg r)

/-- The source's `resolveIfRef`: `null` in, `null` out; otherwise follow
`$ref` until a node without one. -/
def resolveIfRef (fuel : Nat) (node : Option Json) (rootSchema : Json) : ResolveOutcome :=
  match node with
  | none => .ok none
  | some j => resolveIfRefGo fuel j rootSchema

/-! ### Instance inference (JsonToSchemaGeneratorUtil) -/

/-- The source's `deriveJsonSchemaType` applied to a present value: `null`
if null, else boolean, number, array, object, else string.  (Its declared
return type admits `null` but every branch returns a non-empty — truthy —
kind string, so the caller's `if (type)` guard always passes.) -/
def deriveJsonSchemaType : Json → String
  | .null => "null"
  | .bool _ => "boolean"
  | .num _ => "number"
  | .arr _ => "array"
  | .obj _ => "object"
  | .str _ => "string"

/-- Kind of the cell `row[colIndex]`: a missing cell reads as `undefined`,
which `deriveJsonSchemaType` classifies as `"string"` (it is neither `null`
nor of type boolean / number / array / object). -/
def deriveCellType (row : List Json) (colIndex : Nat) : String :=
  match row.get? colIndex with
  | some v => deriveJsonSchemaType v
  | none => "string"

/-- JS `Set.add`: insertion-ordered, ignoring an element already present. -/
def insertKind (acc : List String) (s : String) : List String :=
  if s ∈ acc then acc else acc ++ [s]

/-- The distinct kinds observed in one column across all rows, in first
observation order (`uniqueTypes` of `handleTableBlock`). -/
def columnKinds (rows : List (List Json)) (colIndex : Nat) : List String :=
  rows.foldl (fun acc row => insertKind acc (deriveCellType row colIndex)) []

/-- The per-column constraint of `handleTableBlock`: one kind — scalar
`type`; several kinds — the union; none — the `"null"` fallback. -/
def columnSchema (rows : List (List Json)) (colIndex : Nat) : Json :=
  let types := columnKinds rows colIndex
  if types.length = 1 then .obj (jobj [("type", .str (types.headD ""))])
  else if 0 < types.length then .obj (jobj [("type", .arr (jlist (types.map Json.str)))])
  else .obj (jobj [("type", .str "null")])

/-- A block of the instance front-end (`Block` bean): `header`, `rows` and
`items` are optional; a row is its list of cell values. -/
structure BlockBean where
  name : String
  entity : String
  header : Option (List String)
  rows : Option (List (List Json))
  items : Option (List Json)
  deriving DecidableEq

/-- The source's `handleTableBlock`: the block-variant schema it pushes onto
the sheet's alternation.  `columnTypes` is computed only when a non-empty
header exists (`?? []` otherwise), and the header/row tuples are sized by
`block.header?.length ?? 0`. -/
def handleTableBlock (block : BlockBean) (blockName : String) : Json :=
  let headerList := block.header.getD []
  let hasHeader : Bool :=
    match block.header with
    | some h => 0 < h.length
    | none => false
  let columnTypes : Option (List Json) :=
    if hasHeader then
      some ((List.range headerList.length).map (fun i => columnSchema (block.rows.getD []) i))
    else none
  let headerSize : Int := headerList.length
  .obj (jobj [("type", .str "object"),
    ("properties", .obj (jobj [
      ("name", .obj (jobj [("type", .str "string"),
        ("enum", .arr (jlist [.str blockName]))])),
      ("@entity", .obj (jobj [("type", .str "string"),
        ("enum", .arr (jlist [.str "table"]))])),
      ("header", .obj (jobj [("type", .str "array"),
        ("items", .arr (jlist (headerList.map singleStringEnum))),
        ("additionalItems", .bool false),
        ("minItems", .num headerSize), ("maxItems", .num headerSize)])),
      ("rows", .obj (jobj [("type", .str "array"),
        ("items", .obj (jobj [("type", .str "array"),
          ("items", .arr (jlist (columnTypes.getD []))),
          ("additionalItems", .bool false),
          ("minItems", .num headerSize), ("maxItems", .num headerSize)]))]))])),
    ("required", .arr (jlist [.str "name", .str "@entity", .str "header", .str "rows"]))])

/-! ### Positional row accessors (TableGeneratorUtil) -/

/-- How an emitted accessor addresses its cell: by numeric position
(`this[i]`) or by a name lookup.  The generator under study only ever emits
the former; the constructor for name addressing exists so that the claim
"never by name lookup" is expressible. -/
inductive CellAddr where
  | index (i : Nat)
  | name (s : String)
  deriving DecidableEq

/-- One emitted getter/setter pair of a row class, reduced to the data the
specification speaks about: the accessor names and the cell addressing of
the `return this[…]` / `this[…] = …` bodies. -/
structure RowAccessor where
  getterName : String
  setterName : String
  readAddr : CellAddr
  writeAddr : CellAddr
  deriving DecidableEq

/-- Uppercase one ASCII character. -/
def upperChar (c : Char) : Char :=
  if 97 ≤ c.toNat ∧ c.toNat ≤ 122 then Char.ofNat (c.toNat - 32) else c

/-- Modelled from the spec: `GeneratorUtil.capitalize` (its defining file is
not among the sources, only its call sites are): initial-letter
capitalization. -/
def capitalizeWord (s : String) : String :=
  match s.data with
  | [] => ""
  | c :: cs => String.mk (upperChar c :: cs)

/-- Split a character list into maximal alphanumeric words. -/
def splitNonAlnum : List Char → List (List Char)
  | [] => [[]]
  | c :: cs =>
    if c.isAlphanum then
      match splitNonAlnum cs with
      | t :: ts => (c :: t) :: ts
      | [] => [[c]]
    else [] :: splitNonAlnum cs

/-- Modelled from the spec: `GeneratorUtil.toCamelCase` (its defining file is
not among the sources): camel-case derivation from an arbitrary label —
split at non-alphanumeric separators, lower-case the first word, capitalize
the following ones.  Total and stateless, as §4.2 of the specification
requires; the accessor-positionality results below do not depend on its
details. -/
def toCamelCase (label : String) : String :=
  let ws := (splitNonAlnum label.data).filter (fun w => w ≠ [])
  match ws with
  | [] => ""
  | w :: rest =>
    (rest.map (fun v => capitalizeWord (String.mk (v.map lowerChar)))).foldl
      (fun acc p => acc ++ p) (String.mk (w.map lowerChar))

/-- The header-name extraction of `TableGeneratorUtil.generate`:
`blockSchema.properties?.header?.items || []`, then
`items.map(item => item.enum?.[0])` when that is an array.  An entry is the
first element of the item's `enum` array (`none` models `undefined`). -/
def headerEnumOf (blockSchema : Json) : List (Option Json) :=
  let optChain : Option Json → String → Option Json := fun o k =>
    match o with
    | some j => if j = .null then none else anyField j k
    | none => none
  let items := jsOr
    (optChain (optChain (anyField blockSchema "properties") "header") "items")
    (.arr .nil)
  match items with
  | .arr l =>
    l.toList.map (fun item =>
      match anyField item "enum" with
      | some (.arr e) => e.toList.head?
      | _ => none)
  | _ => []

/-- The getter/setter generation loop of `TableGeneratorUtil.generate`: for
header position `index` it emits `get<Name>()` returning `this[index]` and
`set<Name>(v)` assigning `this[index]` — the cell address is the position in
the header enumeration, a name lookup is never emitted.  A header entry is a
string for every schema the generator consumes (the camel-casing of anything
else would throw); a non-string entry is carried as the empty name, the
addressing being independent of it. -/
def tableRowAccessors (headerEnum : List (Option Json)) : List RowAccessor :=
  headerEnum.enum.map (fun p =>
    let hName : String :=
      match p.2 with
      | some (.str s) => s
      | _ => ""
    let camelCaseHeader := toCamelCase hName
    { getterName := "get" ++ capitalizeWord camelCaseHeader,
      setterName := "set" ++ capitalizeWord camelCaseHeader,
      readAddr := .index p.1,
      writeAddr := .index p.1 })

example : canon (.obj (.cons "b" (.num 1) (.cons "a" .null .nil))) =
    .obj (.cons "a" .null (.cons "b" (.num 1) .nil)) := by decide

example : stringifyJson (.obj (.cons "a" (.arr (.cons (.num (-2)) .nil)) .nil)) =
    "\x7b\"a\":[-2]\x7d" := by decide

example : resolvePointer "definitions/foo"
    (.obj (.cons "definitions" (.obj (.cons "foo" (.num 7) .nil)) .nil)) =
    PtrResult.ok (.num 7) := by decide

/-! ### Observers over built block schemas

These extract, from a block-variant schema value, the slices the
specification talks about: the header tuple, the per-row column-constraint
tuple, and the tuple bounds. -/

/-- The header tuple `properties.header.items` of a table block schema. -/
def tableHeaderTuple (s : Json) : List Json :=
  match ((anyField s "properties").bind (fun p => anyField p "header")).bind
      (fun h => anyField h "items") with
  | some (.arr l) => l.toList
  | _ => []

/-- The header tuple bounds `properties.header.minItems` and `.maxItems`. -/
def tableHeaderBounds (s : Json) : Option Json × Option Json :=
  match (anyField s "properties").bind (fun p => anyField p "header") with
  | some h => (anyField h "minItems", anyField h "maxItems")
  | none => (none, none)

/-- The row tuple `properties.rows.items.items` of a table block schema. -/
def tableRowTuple (s : Json) : List Json :=
  match (((anyField s "properties").bind (fun p => anyField p "rows")).bind
      (fun r => anyField r "items")).bind (fun i => anyField i "items") with
  | some (.arr l) => l.toList
  | _ => []

/-- The row tuple bounds `properties.rows.items.minItems` / `.maxItems`. -/
def tableRowBounds (s : Json) : Option Json × Option Json :=
  match ((anyField s "properties").bind (fun p => anyField p "rows")).bind
      (fun r => anyField r "items") with
  | some i => (anyField i "minItems", anyField i "maxItems")
  | none => (none, none)

/-! ### Resolver path predicates -/

/-- Every traversed value along the pointer walk is present and truthy
(the condition under which `resolvePointer` can return at all). -/
def pathTruthy : List String → Json → Bool
  | [], _ => true
  | part :: parts, current =>
    match anyField current part with
    | some v => truthy v && pathTruthy parts v
    | none => false

/-- Pure presence walk: follow the segments as mapping keys, ignoring
truthiness.  `some v` means every segment is present and `v` is the reached
value. -/
def walkPresent : List String → Json → Option Json
  | [], current => some current
  | part :: parts, current => (anyField current part).bind (walkPresent parts)

/-- Some segment of the pointer is absent as a mapping key along the walk
from the root (all earlier segments resolving to truthy values). -/
inductive SegmentAbsent : List String → Json → Prop where
  | here (part : String) (parts : List String) (current : Json) :
      anyField current part = none → SegmentAbsent (part :: parts) current
  | there (part : String) (parts : List String) (current v : Json) :
      anyField current part = some v → truthy v = true →
      SegmentAbsent parts v → SegmentAbsent (part :: parts) current

/-- An acyclic chain of `n` resolvable local `$ref` hops from `j` down to
`final`, which carries no indirection. -/
inductive RefChain (rootSchema : Json) : Nat → Json → Json → Prop where
  | last (j : Json) : getRef j = none → RefChain rootSchema 0 j j
  | step (j : Json) (r : String) (next final : Json) (n : Nat) :
      getRef j = some r → sStartsWith r "#/" = true →
      resolvePointer (sDropLeft r 2) rootSchema = PtrResult.ok next →
      RefChain rootSchema n next final →
      RefChain rootSchema (n + 1) j final

/-! ### Well-formedness and structural equivalence (canonical fingerprint)

`jwf` states that every object level of a value has pairwise-distinct keys —
true of anything that was a JavaScript object.  `JEquiv` is equality up to
re-ordering of object keys at any depth: primitives must match exactly and
arrays pointwise in order, while objects are compared by key lookup.  The
canonical-fingerprint results identify `canon`-equality with `JEquiv` on
well-formed values. -/

/-- Pairwise-distinct strings. -/
def distinctKeys : List String → Bool
  | [] => true
  | k :: t => !(t.contains k) && distinctKeys t

mutual
/-- Well-formedness: distinct keys on every object level. -/
def jwf : Json → Bool
  | .null => true
  | .bool _ => true
  | .num _ => true
  | .str _ => true
  | .arr xs => jwfList xs
  | .obj o => distinctKeys o.keys && jwfObj o
  termination_by structural j => j
/-- Well-formedness of array elements. -/
def jwfList : JsonList → Bool
  | .nil => true
  | .cons x xs => jwf x && jwfList xs
  termination_by structural l => l
/-- Well-formedness of object values. -/
def jwfObj : JsonObj → Bool
  | .nil => true
  | .cons _ v t => jwf v && jwfObj t
  termination_by structural o => o
end

mutual
/-- Equality of JSON values up to object-key re-ordering at any depth:
primitives coincide, arrays are pointwise equivalent in order, objects hold
the same keys with equivalent values. -/
inductive JEquiv : Json → Json → Prop where
  | null : JEquiv .null .null
  | bool (b : Bool) : JEquiv (.bool b) (.bool b)
  | num (n : Int) : JEquiv (.num n) (.num n)
  | str (s : String) : JEquiv (.str s) (.str s)
  | arr (xs ys : JsonList) : JListEquiv xs ys → JEquiv (.arr xs) (.arr ys)
  | obj (a b : JsonObj) :
      (∀ k, (a.lookup k).isSome ↔ (b.lookup k).isSome) →
      (∀ k v w, a.lookup k = some v → b.lookup k = some w → JEquiv v w) →
      JEquiv (.obj a) (.obj b)
/-- Pointwise equivalence of arrays (element order is semantic). -/
inductive JListEquiv : JsonList → JsonList → Prop where
  | nil : JListEquiv .nil .nil
  | cons (x y : Json) (xs ys : JsonList) :
      JEquiv x y → JListEquiv xs ys → JListEquiv (.cons x xs) (.cons y ys)
end

/-- Lookup over a pair list (the list image of `JsonObj.lookup`, used to
relate canonical key sorting to the object it rearranges). -/
def pairsLookup : List (String × Json) → String → Option Json
  | [], _ => none
  | p :: t, k => if p.1 = k then some p.2 else pairsLookup t k

/-! ### Concrete scenario data -/

/-- The sheet grid of end-to-end scenario A: block header `employee_table`,
meta row, and two field rows. -/
def scenarioASheet : List (List String) :=
  [["employee_table"], ["name", "null_allowed", "type"],
   ["id", "No", "number"], ["label", "Yes", "string"]]

/-- The block that scenario A parses to. -/
def scenarioABlock : BlockModel where
  name := "employee_table"
  entity := "table"
  fields := [
    { fieldName := "id", nullAllowed := "No", type := "number", minimum := "",
      maximum := "", minLength := "", maxLength := "", pattern := "",
      enumValues := "", description := "", examples := "" },
    { fieldName := "label", nullAllowed := "Yes", type := "string", minimum := "",
      maximum := "", minLength := "", maxLength := "", pattern := "",
      enumValues := "", description := "", examples := "" }]

/-- A one-field table block named `dup_table` whose single field is named by
the argument — two structurally different blocks under the same name. -/
def dupBlock (fieldName : String) : BlockModel where
  name := "dup_table"
  entity := "table"
  fields := [
    { fieldName := fieldName, nullAllowed := "", type := "number", minimum := "",
      maximum := "", minLength := "", maxLength := "", pattern := "",
      enumValues := "", description := "", examples := "" }]

/-- A workbook in which the shape-`a` block `dup_table` appears verbatim on
two sheets and a structurally different block, also named `dup_table`,
appears verbatim on two further sheets. -/
def collidingWorkbook : WorkbookModel where
  name := "wb"
  entity := "workbook"
  sheets :=
    [{ name := "s1", entity := "sheet", blocks := [dupBlock "a"] },
     { name := "s2", entity := "sheet", blocks := [dupBlock "a"] },
     { name := "s3", entity := "sheet", blocks := [dupBlock "b"] },
     { name := "s4", entity := "sheet", blocks := [dupBlock "b"] }]

/-- The synthesized schema of `collidingWorkbook`, before deduplication. -/
def collidingSchema : Json := buildJsonSchema collidingWorkbook

/-- A workbook in which one and the same `dup_table` block appears verbatim
on two sheets — the plain shared-definition scenario. -/
def sharedWorkbook : WorkbookModel where
  name := "wb"
  entity := "workbook"
  sheets :=
    [{ name := "s1", entity := "sheet", blocks := [dupBlock "a"] },
     { name := "s2", entity := "sheet", blocks := [dupBlock "a"] }]

/-- The synthesized schema of `sharedWorkbook`, before deduplication. -/
def sharedSchema : Json := buildJsonSchema sharedWorkbook

/-- A root document holding an `A → B → C` definitions chain: `A` and `B`
are references, `C` is a concrete node. -/
def chainRoot : Json :=
  .obj (.cons "definitions" (.obj
    (.cons "A" (.obj (.cons "$ref" (.str "#/definitions/B") .nil))
    (.cons "B" (.obj (.cons "$ref" (.str "#/definitions/C") .nil))
    (.cons "C" (.obj (.cons "x" (.num 1) .nil))
    .nil)))) .nil)

/-! ## Theorems -/
/-- The remaining rows returned by the field loop never outnumber its input
rows. -/
theorem parseFields_length_le (metaCols : MetaCols) (rows : List (List String)) :
    (parseFields metaCols rows).2.length ≤ rows.length := by
  induction rows with
  | nil => simp [parseFields]
  | cons row rest ih =>
    simp only [parseFields]
    split
    · exact Nat.le_succ _
    · split
      · exact le_refl _
      · simpa using Nat.le_succ_of_le ih

/-- Any fuel at least the number of remaining rows yields the same scan:
the fuel in `parseBlocksInSheet` is sufficient. -/
theorem parseBlocksGo_fuel (rows : List (List String)) (fuel₁ fuel₂ : Nat)
    (h₁ : rows.length ≤ fuel₁) (h₂ : rows.length ≤ fuel₂) :
    parseBlocksGo fuel₁ rows = parseBlocksGo fuel₂ rows := by
  induction fuel₁ using Nat.strong_induction_on generalizing rows fuel₂ with
  | _ fuel₁ ih =>
    match fuel₁, rows, fuel₂ with
    | 0, rows, fuel₂ =>
      have : rows = [] := List.eq_nil_of_length_eq_zero (Nat.le_zero.mp h₁)
      subst this
      cases fuel₂ <;> rfl
    | fuel₁ + 1, [], fuel₂ => cases fuel₂ <;> rfl
    | fuel₁ + 1, row :: rest, 0 => exact absurd h₂ (by simp)
    | fuel₁ + 1, row :: rest, fuel₂ + 1 =>
      have hr1 : rest.length ≤ fuel₁ := by simp at h₁; omega
      have hr2 : rest.length ≤ fuel₂ := by simp at h₂; omega
      simp only [parseBlocksGo]
      by_cases hh : isBlockHeading (sTrim (row.getD 0 "")) = true
      · rw [if_pos hh, if_pos hh]
        have hd : ((parseFields (findMetaColumns (rest.headD [])) (rest.drop 1)).2).length ≤
            rest.length := by
          calc ((parseFields (findMetaColumns (rest.headD [])) (rest.drop 1)).2).length
              ≤ (rest.drop 1).length := parseFields_length_le _ _
            _ ≤ rest.length := by simp [List.length_drop]
        rw [ih fuel₁ (Nat.lt_succ_self _) _ fuel₂ (le_trans hd hr1) (le_trans hd hr2)]
      · rw [if_neg hh, if_neg hh]
        rw [ih fuel₁ (Nat.lt_succ_self _) _ fuel₂ hr1 hr2]


/-- Round trip between Lean lists and `JsonList`. -/
theorem jlist_toList (l : List Json) : (jlist l).toList = l := by
  induction l with
  | nil => rfl
  | cons x xs ih => simp [jlist, JsonList.toList, ih]

/-- C1: on a sheet holding the block header `employee_table`, the meta row
`name,null_allowed,type` and the field rows `id,No,number` / `label,Yes,string`,
the spreadsheet front-end parses exactly one table block, whose synthesized
header tuple is the two single-value string enums `"id"`, `"label"` in that
order and whose per-row column constraints are `{type:"number"}` and
`{type:["string","null"]}` in the same order. -/
theorem c1_scenarioA_table_schema :
    parseBlocksInSheet scenarioASheet = [scenarioABlock] ∧
    tableHeaderTuple (buildTableBlockSchema scenarioABlock) =
      [singleStringEnum "id", singleStringEnum "label"] ∧
    tableRowTuple (buildTableBlockSchema scenarioABlock) =
      [.obj (.cons "type" (.str "number") .nil),
       .obj (.cons "type" (.arr (.cons (.str "string") (.cons (.str "null") .nil))) .nil)] := by
  decide

/-- The header tuple of a built table block schema lists one single-value
string enum per field, in declaration order. -/
theorem buildTable_headerTuple (b : BlockModel) :
    tableHeaderTuple (buildTableBlockSchema b) =
      b.fields.map (fun f => singleStringEnum f.fieldName) := by
  simp [tableHeaderTuple, buildTableBlockSchema, anyField, jobj, JsonObj.lookup,
    Option.bind, jlist_toList]

/-- The header tuple of a built table block schema is bounded to exactly the
field count. -/
theorem buildTable_headerBounds (b : BlockModel) :
    tableHeaderBounds (buildTableBlockSchema b) =
      (some (.num b.fields.length), some (.num b.fields.length)) := by
  simp [tableHeaderBounds, buildTableBlockSchema, anyField, jobj, JsonObj.lookup,
    Option.bind]

/-- The row tuple of a built table block schema carries one field-schema
constraint per field, in declaration order. -/
theorem buildTable_rowTuple (b : BlockModel) :
    tableRowTuple (buildTableBlockSchema b) = b.fields.map buildFieldSchema := by
  simp [tableRowTuple, buildTableBlockSchema, anyField, jobj, JsonObj.lookup,
    Option.bind, jlist_toList]

/-- The row tuple of a built table block schema is bounded to exactly the
field count. -/
theorem buildTable_rowBounds (b : BlockModel) :
    tableRowBounds (buildTableBlockSchema b) =
      (some (.num b.fields.length), some (.num b.fields.length)) := by
  simp [tableRowBounds, buildTableBlockSchema, anyField, jobj, JsonObj.lookup,
    Option.bind]

/-- Reading the header enumeration back from a built table block schema
yields the field names in declaration order. -/
theorem headerEnumOf_buildTable (b : BlockModel) :
    headerEnumOf (buildTableBlockSchema b) =
      b.fields.map (fun f => some (.str f.fieldName)) := by
  simp [headerEnumOf, buildTableBlockSchema, anyField, jobj, JsonObj.lookup,
    Option.bind, jlist_toList, singleStringEnum, jsOr, truthy]

/-- Accessor generation over string header names: one pair per position,
each addressing its own index. -/
theorem tableRowAccessors_map_str (names : List String) :
    tableRowAccessors (names.map (fun s => some (Json.str s))) =
      names.enum.map (fun p =>
        { getterName := "get" ++ capitalizeWord (toCamelCase p.2),
          setterName := "set" ++ capitalizeWord (toCamelCase p.2),
          readAddr := .index p.1, writeAddr := .index p.1 }) := by
  simp [tableRowAccessors, List.enum_map]

/-- C3: for a table block with `N` declared fields, the emitted header
schema is the fixed tuple of the `N` single-value string enums in
field-declaration order with `minItems = maxItems = N`; each row schema is
the tuple of the `N` per-column constraints with column `i` the constraint
of field `i` and the same bounds; and the generated row accessor pairs are
one `get…`/`set…` pair per field, the pair at position `i` reading and
writing the cell at numeric index `i` (`this[i]`) — never by name lookup. -/
theorem c3_positional_table_layout (b : BlockModel) :
    tableHeaderTuple (buildTableBlockSchema b) =
      b.fields.map (fun f => singleStringEnum f.fieldName) ∧
    tableHeaderBounds (buildTableBlockSchema b) =
      (some (.num b.fields.length), some (.num b.fields.length)) ∧
    tableRowTuple (buildTableBlockSchema b) = b.fields.map buildFieldSchema ∧
    tableRowBounds (buildTableBlockSchema b) =
      (some (.num b.fields.length), some (.num b.fields.length)) ∧
    tableRowAccessors (headerEnumOf (buildTableBlockSchema b)) =
      b.fields.enum.map (fun p =>
        { getterName := "get" ++ capitalizeWord (toCamelCase p.2.fieldName),
          setterName := "set" ++ capitalizeWord (toCamelCase p.2.fieldName),
          readAddr := .index p.1, writeAddr := .index p.1 }) ∧
    ∀ a ∈ tableRowAccessors (headerEnumOf (buildTableBlockSchema b)),
      ∃ i, a.readAddr = CellAddr.index i ∧ a.writeAddr = CellAddr.index i := by
  have henum : headerEnumOf (buildTableBlockSchema b) =
      (b.fields.map BlockField.fieldName).map (fun s => some (Json.str s)) := by
    rw [headerEnumOf_buildTable, List.map_map]
    rfl
  have hacc : tableRowAccessors (headerEnumOf (buildTableBlockSchema b)) =
      b.fields.enum.map (fun p =>
        { getterName := "get" ++ capitalizeWord (toCamelCase p.2.fieldName),
          setterName := "set" ++ capitalizeWord (toCamelCase p.2.fieldName),
          readAddr := .index p.1, writeAddr := .index p.1 }) := by
    rw [henum, tableRowAccessors_map_str, List.enum_map]
    simp
  refine ⟨buildTable_headerTuple b, buildTable_headerBounds b, buildTable_rowTuple b,
    buildTable_rowBounds b, hacc, ?_⟩
  intro a ha
  rw [hacc] at ha
  obtain ⟨p, _, hp⟩ := List.mem_map.mp ha
  exact ⟨p.1, by rw [← hp], by rw [← hp]⟩

/-- Witness for `c3_positional_table_layout` at the scenario-A block: the
first generated accessor pair addresses cell index 0. -/
theorem c3_positional_table_layout_witness :
    ∃ i,
      ((tableRowAccessors (headerEnumOf (buildTableBlockSchema scenarioABlock))).headD
        { getterName := "", setterName := "", readAddr := .name "", writeAddr := .name "" }).readAddr =
        CellAddr.index i ∧
      ((tableRowAccessors (headerEnumOf (buildTableBlockSchema scenarioABlock))).headD
        { getterName := "", setterName := "", readAddr := .name "", writeAddr := .name "" }).writeAddr =
        CellAddr.index i := by
  exact (c3_positional_table_layout scenarioABlock).2.2.2.2.2 _ (by decide)

/-- A cell that lower-cases to `"no"` is non-empty, so the source's
truthiness guard `bf.nullAllowed && …` is subsumed by the case-insensitive
comparison. -/
theorem sToLower_no_ne_empty (s : String) (h : sToLower s = "no") : s ≠ "" := by
  intro he
  subst he
  exact absurd h (by decide)

/-- The `type` constraint emitted by `buildFieldSchema` for a declared type:
scalar exactly when the nullability cell lower-cases to `"no"`, the union
with `"null"` otherwise. -/
theorem buildFieldSchema_type (bf : BlockField) (ht : bf.type ≠ "") :
    anyField (buildFieldSchema bf) "type" =
      (if sToLower bf.nullAllowed = "no" then some (.str bf.type)
       else some (.arr (jlist [.str bf.type, .str "null"]))) := by
  by_cases hn : sToLower bf.nullAllowed = "no"
  · have hne : bf.nullAllowed ≠ "" := sToLower_no_ne_empty _ hn
    simp [buildFieldSchema, anyField, jobj, JsonObj.lookup, ht, hn, hne]
  · by_cases hne : bf.nullAllowed ≠ ""
    · simp [buildFieldSchema, anyField, jobj, JsonObj.lookup, ht, hn, hne]
    · simp [buildFieldSchema, anyField, jobj, JsonObj.lookup, ht, hn, hne]

/-- C8: for every parsed field with a declared type, the nullability cell is
compared case-insensitively to `"no"`: that match keeps the scalar declared
type; any other cell value yields the union of the declared type with
`"null"`; and when the nullability column is absent from the meta header the
cell reads as empty, hence also the union. -/
theorem c8_nullability (row : List String) (metaCols : MetaCols) :
    ((parseFieldRow row metaCols).type ≠ "" →
      (sToLower (parseFieldRow row metaCols).nullAllowed = "no" →
        anyField (buildFieldSchema (parseFieldRow row metaCols)) "type" =
          some (.str (parseFieldRow row metaCols).type)) ∧
      (sToLower (parseFieldRow row metaCols).nullAllowed ≠ "no" →
        anyField (buildFieldSchema (parseFieldRow row metaCols)) "type" =
          some (.arr (jlist [.str (parseFieldRow row metaCols).type, .str "null"])))) ∧
    (metaCols.null_allowed = none → (parseFieldRow row metaCols).nullAllowed = "") := by
  constructor
  · intro ht
    constructor
    · intro hn
      rw [buildFieldSchema_type _ ht, if_pos hn]
    · intro hn
      rw [buildFieldSchema_type _ ht, if_neg hn]
  · intro hnone
    simp [parseFieldRow, getSafeVal, hnone]

/-- Witness for `c8_nullability`: a field whose nullability cell is `"YES"`
gets the nullable union, and one whose column is absent reads empty. -/
theorem c8_nullability_witness :
    anyField (buildFieldSchema (parseFieldRow ["x", "YES", "number"]
      { null_allowed := some 1, type := some 2 })) "type" =
      some (.arr (jlist [.str "number", .str "null"])) ∧
    (parseFieldRow ["x", "YES", "number"] { type := some 2 }).nullAllowed = "" := by
  constructor
  · exact ((c8_nullability ["x", "YES", "number"]
      { null_allowed := some 1, type := some 2 }).1 (by decide)).2 (by decide)
  · exact (c8_nullability ["x", "YES", "number"] { type := some 2 }).2 (by decide)

/-- Membership in a JS-Set insertion: the new element or a previous one. -/
theorem mem_insertKind (acc : List String) (x s : String) :
    s ∈ insertKind acc x ↔ s ∈ acc ∨ s = x := by
  by_cases h : x ∈ acc
  · simp only [insertKind, if_pos h]
    constructor
    · exact Or.inl
    · rintro (hs | rfl)
      · exact hs
      · exact h
  · simp [insertKind, h, List.mem_append]

/-- Membership in the kind-collection fold. -/
theorem mem_foldl_insertKind (rows : List (List Json)) (i : Nat) (acc : List String)
    (s : String) :
    s ∈ rows.foldl (fun a r => insertKind a (deriveCellType r i)) acc ↔
      s ∈ acc ∨ ∃ r ∈ rows, deriveCellType r i = s := by
  induction rows generalizing acc with
  | nil => simp
  | cons r rest ih =>
    simp only [List.foldl_cons, ih, mem_insertKind]
    constructor
    · rintro ((hs | rfl) | ⟨r', hr', hs'⟩)
      · exact Or.inl hs
      · exact Or.inr ⟨r, by simp⟩
      · exact Or.inr ⟨r', by simp [hr'], hs'⟩
    · rintro (hs | ⟨r', hr', hs'⟩)
      · exact Or.inl (Or.inl hs)
      · rcases List.mem_cons.mp hr' with rfl | hr''
        · exact Or.inl (Or.inr hs'.symm)
        · exact Or.inr ⟨r', hr'', hs'⟩

/-- The kind-collection fold keeps entries distinct. -/
theorem nodup_foldl_insertKind (rows : List (List Json)) (i : Nat) (acc : List String)
    (h : acc.Nodup) :
    (rows.foldl (fun a r => insertKind a (deriveCellType r i)) acc).Nodup := by
  induction rows generalizing acc with
  | nil => simpa
  | cons r rest ih =>
    simp only [List.foldl_cons]
    apply ih
    by_cases hx : deriveCellType r i ∈ acc
    · simpa [insertKind, hx]
    · simp only [insertKind, if_neg hx]
      refine List.Nodup.append h (by simp) ?_
      intro a ha hb
      rw [List.mem_singleton] at hb
      subst hb
      exact hx ha

/-- Inserting kinds already collected changes nothing. -/
theorem foldl_insertKind_const (rows : List (List Json)) (i : Nat) (k : String)
    (acc : List String) (hall : ∀ r ∈ rows, deriveCellType r i = k) (hk : k ∈ acc) :
    rows.foldl (fun a r => insertKind a (deriveCellType r i)) acc = acc := by
  induction rows with
  | nil => rfl
  | cons r rest ih =>
    have hr : deriveCellType r i = k := hall r (by simp)
    simp only [List.foldl_cons, hr, insertKind, if_pos hk]
    exact ih (fun r' hr' => hall r' (by simp [hr']))

/-- A non-empty column with a single observed kind collects exactly it. -/
theorem columnKinds_const (rows : List (List Json)) (i : Nat) (k : String)
    (hne : rows ≠ []) (hall : ∀ r ∈ rows, deriveCellType r i = k) :
    columnKinds rows i = [k] := by
  match rows, hne with
  | r :: rest, _ =>
    have hr : deriveCellType r i = k := hall r (by simp)
    simp only [columnKinds, List.foldl_cons, hr, insertKind]
    rw [if_neg (by simp), List.nil_append]
    exact foldl_insertKind_const rest i k [k]
      (fun r' hr' => hall r' (by simp [hr'])) (by simp)

/-- C9: for each column position the instance inferrer collects the set of
distinct kinds of that column's cell across all rows (with the precedence
fixed by `deriveJsonSchemaType`): exactly one observed kind emits the scalar
constraint, several emit the union of the collected kinds, and a column with
no observations falls back to the null-only constraint. -/
theorem c9_column_inference (rows : List (List Json)) (i : Nat) :
    ((∀ s, s ∈ columnKinds rows i ↔ ∃ r ∈ rows, deriveCellType r i = s) ∧
      (columnKinds rows i).Nodup) ∧
    (rows = [] → columnSchema rows i = .obj (jobj [("type", .str "null")])) ∧
    (∀ k, rows ≠ [] → (∀ r ∈ rows, deriveCellType r i = k) →
      columnSchema rows i = .obj (jobj [("type", .str k)])) ∧
    (1 < (columnKinds rows i).length →
      columnSchema rows i =
        .obj (jobj [("type", .arr (jlist ((columnKinds rows i).map Json.str)))])) := by
  refine ⟨⟨fun s => ?_, ?_⟩, ?_, ?_, ?_⟩
  · simpa [columnKinds] using mem_foldl_insertKind rows i [] s
  · exact nodup_foldl_insertKind rows i [] (by simp)
  · rintro rfl
    rfl
  · intro k hne hall
    simp [columnSchema, columnKinds_const rows i k hne hall]
  · intro hlen
    have h1 : ¬((columnKinds rows i).length = 1) := by omega
    have h0 : 0 < (columnKinds rows i).length := by omega
    simp [columnSchema, h1, h0]

/-- Witness for `c9_column_inference`: a column observing only numbers gets
the scalar `number` constraint, and an empty table the null fallback. -/
theorem c9_column_inference_witness :
    columnSchema [[Json.num 3], [Json.num 5]] 0 = .obj (jobj [("type", .str "number")]) ∧
    columnSchema [] 0 = .obj (jobj [("type", .str "null")]) := by
  constructor
  · exact (c9_column_inference [[Json.num 3], [Json.num 5]] 0).2.2.1 "number"
      (by decide) (by decide)
  · exact (c9_column_inference [] 0).2.1 rfl

/-- A pointer with an absent segment along its walk resolves to the error
naming that pointer. -/
theorem resolvePointerGo_error_of_absent (p : String) (parts : List String)
    (current : Json) (h : SegmentAbsent parts current) :
    resolvePointerGo p parts current = PtrResult.error p := by
  induction h with
  | here part parts current habs => simp [resolvePointerGo, habs]
  | there part parts current v hsome htr _ ih => simp [resolvePointerGo, hsome, htr, ih]

/-- `resolvePointer`'s walk either returns a node or throws the pointer
error — nothing else. -/
theorem resolvePointerGo_cases (p : String) (parts : List String) (current : Json) :
    (∃ v, resolvePointerGo p parts current = PtrResult.ok v) ∨
      resolvePointerGo p parts current = PtrResult.error p := by
  induction parts generalizing current with
  | nil => exact Or.inl ⟨current, rfl⟩
  | cons part parts ih =>
    simp only [resolvePointerGo]
    match hf : anyField current part with
    | none => exact Or.inr rfl
    | some v =>
      by_cases htr : truthy v
      · simpa [htr] using ih v
      · simp [htr]

/-- The walk returns a node exactly when every traversed value is present
and truthy. -/
theorem resolvePointerGo_ok_iff (p : String) (parts : List String) (current : Json) :
    (∃ v, resolvePointerGo p parts current = PtrResult.ok v) ↔
      pathTruthy parts current = true := by
  induction parts generalizing current with
  | nil => simp [resolvePointerGo, pathTruthy]
  | cons part parts ih =>
    simp only [resolvePointerGo, pathTruthy]
    match hf : anyField current part with
    | none => simp
    | some v =>
      by_cases htr : truthy v
      · simpa [htr] using ih v
      · simp [htr]

/-- C4: a node carrying no `$ref` is returned unchanged by `resolveIfRef`
(for any step budget), and along any acyclic chain of `n` resolvable local
`$ref` hops the loop terminates within any budget of at least `n` steps,
returning the chain's final node, which carries no indirection. -/
theorem c4_resolve_identity_and_chain :
    (∀ (node rootSchema : Json) (fuel : Nat), anyField node "$ref" = none →
      resolveIfRef fuel (some node) rootSchema = .ok (some node)) ∧
    (∀ (rootSchema : Json) (n : Nat) (j final : Json),
      RefChain rootSchema n j final →
      getRef final = none ∧
      ∀ fuel, n ≤ fuel → resolveIfRef fuel (some j) rootSchema = .ok (some final)) := by
  constructor
  · intro node rootSchema fuel habs
    have hg : getRef node = none := by simp [getRef, habs]
    simp [resolveIfRef, resolveIfRefGo, hg]
  · intro rootSchema n j final hchain
    induction hchain with
    | last j hnone =>
      exact ⟨hnone, fun fuel _ => by simp [resolveIfRef, resolveIfRefGo, hnone]⟩
    | step j r next final n href hloc hres _ ih =>
      refine ⟨ih.1, fun fuel hfuel => ?_⟩
      match fuel, hfuel with
      | fuel + 1, _ =>
        have : resolveIfRefGo (fuel + 1) j rootSchema = resolveIfRefGo fuel next rootSchema := by
          rw [resolveIfRefGo, href]
          simp [hloc, hres]
        simpa [resolveIfRef, this] using ih.2 fuel (by omega)

/-- Witness for `c4_resolve_identity_and_chain`: the `A → B → C` chain of
`chainRoot` resolves, within budget 2, to `C`'s contents, and a node with no
`$ref` is returned as is. -/
theorem c4_resolve_identity_and_chain_witness :
    resolveIfRef 5 (some (.obj (.cons "x" (.num 1) .nil))) chainRoot =
      .ok (some (.obj (.cons "x" (.num 1) .nil))) ∧
    resolveIfRef 2 (some (.obj (.cons "$ref" (.str "#/definitions/B") .nil))) chainRoot =
      .ok (some (.obj (.cons "x" (.num 1) .nil))) := by
  have hchain : RefChain chainRoot 2 (.obj (.cons "$ref" (.str "#/definitions/B") .nil))
      (.obj (.cons "x" (.num 1) .nil)) := by
    refine RefChain.step _ "#/definitions/B"
      (.obj (.cons "$ref" (.str "#/definitions/C") .nil)) _ 1
      (by decide) (by decide) (by decide) ?_
    refine RefChain.step _ "#/definitions/C" (.obj (.cons "x" (.num 1) .nil)) _ 0
      (by decide) (by decide) (by decide) ?_
    exact RefChain.last _ (by decide)
  constructor
  · exact c4_resolve_identity_and_chain.1 _ chainRoot 5 (by decide)
  · exact (c4_resolve_identity_and_chain.2 chainRoot 2 _ _ hchain).2 2 (by omega)

/-- Counterexample to C5 as stated: the empty string does not begin with
`#/`, yet a node whose `$ref` is the empty string raises no error — the
falsy `$ref` ends the `while` loop and the node is returned unchanged. -/
theorem c5_empty_ref_counterexample :
    sStartsWith "" "#/" = false ∧
    resolveIfRef 1 (some (.obj (.cons "$ref" (.str "") .nil))) emptyObj =
      .ok (some (.obj (.cons "$ref" (.str "") .nil))) := by
  decide

/-- C5 (amended): every non-empty `$ref` string not beginning with the
local-document prefix `#/` raises the unsupported-reference error, and a
local pointer with a segment absent as a mapping key along the walk raises
the unresolved-pointer error, whose message names the pointer. -/
theorem c5_error_classification (node rootSchema : Json) (r : String) (fuel : Nat) :
    (getRef node = some r → sStartsWith r "#/" = false →
      resolveIfRefGo fuel node rootSchema = .unsupportedRef (unsupportedRefMsg r)) ∧
    (SegmentAbsent (sSplitOnChar '/' r) rootSchema →
      resolvePointer r rootSchema = PtrResult.error r) ∧
    (getRef node = some r → sStartsWith r "#/" = true →
      SegmentAbsent (sSplitOnChar '/' (sDropLeft r 2)) rootSchema →
      resolveIfRefGo (fuel + 1) node rootSchema =
        .unresolvedPointer (unresolvedPointerMsg (sDropLeft r 2))) := by
  refine ⟨?_, ?_, ?_⟩
  · intro href hns
    simp [resolveIfRefGo, href, hns]
  · intro habs
    exact resolvePointerGo_error_of_absent _ _ _ habs
  · intro href hloc habs
    have herr : resolvePointer (sDropLeft r 2) rootSchema =
        PtrResult.error (sDropLeft r 2) :=
      resolvePointerGo_error_of_absent _ _ _ habs
    simp [resolveIfRefGo, href, hloc, herr]

/-- Witness for `c5_error_classification`: a remote `$ref` raises the
unsupported-reference error; a pointer into an empty document raises the
unresolved-pointer error naming the pointer. -/
theorem c5_error_classification_witness :
    resolveIfRefGo 1 (.obj (.cons "$ref" (.str "http://other/doc") .nil)) emptyObj =
      .unsupportedRef (unsupportedRefMsg "http://other/doc") ∧
    resolveIfRefGo 1 (.obj (.cons "$ref" (.str "#/definitions/missing") .nil)) emptyObj =
      .unresolvedPointer (unresolvedPointerMsg "definitions/missing") := by
  constructor
  · exact (c5_error_classification _ emptyObj "http://other/doc" 1).1 (by decide) (by decide)
  · refine (c5_error_classification _ emptyObj "#/definitions/missing" 0).2.2
      (by decide) (by decide) ?_
    rw [show sSplitOnChar '/' (sDropLeft "#/definitions/missing" 2) =
      ["definitions", "missing"] from by decide]
    exact SegmentAbsent.here _ _ _ (by decide)

/-- C10: pointer resolution succeeds exactly when every traversed value is
present and truthy; in particular, when every segment is present as a
mapping key but some reached value is falsy, `resolveIfRef` raises the
unresolved-pointer error instead of returning that value. -/
theorem c10_falsy_unresolvable (parts : List String) (current : Json) (p : String) :
    ((∃ v, resolvePointerGo p parts current = PtrResult.ok v) ↔
      pathTruthy parts current = true) ∧
    (∀ (node rootSchema : Json) (r : String) (fuel : Nat),
      getRef node = some r → sStartsWith r "#/" = true →
      (walkPresent (sSplitOnChar '/' (sDropLeft r 2)) rootSchema).isSome →
      pathTruthy (sSplitOnChar '/' (sDropLeft r 2)) rootSchema = false →
      resolveIfRefGo (fuel + 1) node rootSchema =
        .unresolvedPointer (unresolvedPointerMsg (sDropLeft r 2))) := by
  constructor
  · exact resolvePointerGo_ok_iff p parts current
  · intro node rootSchema r fuel href hloc _ hfalse
    have herr : resolvePointer (sDropLeft r 2) rootSchema =
        PtrResult.error (sDropLeft r 2) := by
      rcases resolvePointerGo_cases (sDropLeft r 2)
        (sSplitOnChar '/' (sDropLeft r 2)) rootSchema with hok | herr
      · rw [(resolvePointerGo_ok_iff _ _ _).mp hok] at hfalse
        exact absurd hfalse (by simp)
      · exact herr
    simp [resolveIfRefGo, href, hloc, herr]

/-- Witness for `c10_falsy_unresolvable`: with root `{ defs: { x: 0 } }`,
every segment of `#/defs/x` is present, the reached value `0` is falsy, and
resolution raises the unresolved-pointer error. -/
theorem c10_falsy_unresolvable_witness :
    (¬ ∃ v, resolvePointerGo "defs/x" ["defs", "x"]
      (.obj (.cons "defs" (.obj (.cons "x" (.num 0) .nil)) .nil)) = PtrResult.ok v) ∧
    resolveIfRefGo 1 (.obj (.cons "$ref" (.str "#/defs/x") .nil))
      (.obj (.cons "defs" (.obj (.cons "x" (.num 0) .nil)) .nil)) =
      .unresolvedPointer (unresolvedPointerMsg (sDropLeft "#/defs/x" 2)) := by
  constructor
  · intro hok
    have := (c10_falsy_unresolvable ["defs", "x"]
      (.obj (.cons "defs" (.obj (.cons "x" (.num 0) .nil)) .nil)) "defs/x").1.mp hok
    exact absurd this (by decide)
  · exact (c10_falsy_unresolvable [] emptyObj "").2 _ _ "#/defs/x" 0
      (by decide) (by decide) (by decide) (by decide)

/-- Mapping over a `JsonList` commutes with flattening. -/
theorem jlMap_toList (f : Json → Json) : ∀ (l : JsonList),
    (jlMap f l).toList = l.toList.map f
  | .nil => rfl
  | .cons x xs => by simp [jlMap, JsonList.toList, jlMap_toList f xs]

/-- In-place value modification is what lookup at the same key sees. -/
theorem lookup_modifyVal_self (k : String) (f : Json → Json) : ∀ (o : JsonObj),
    (o.modifyVal k f).lookup k = (o.lookup k).map f
  | .nil => rfl
  | .cons k' v t => by
    by_cases h : k' = k
    · simp [JsonObj.modifyVal, JsonObj.lookup, h]
    · simp [JsonObj.modifyVal, JsonObj.lookup, h, lookup_modifyVal_self k f t]

/-- In-place value modification is invisible to lookups at other keys. -/
theorem lookup_modifyVal_other (k k' : String) (f : Json → Json) (h : k' ≠ k) :
    ∀ (o : JsonObj), (o.modifyVal k f).lookup k' = o.lookup k'
  | .nil => rfl
  | .cons k'' v t => by
    by_cases h2 : k'' = k'
    · have hne : ¬(k'' = k) := fun he => h (h2 ▸ he ▸ rfl)
      simp [JsonObj.modifyVal, JsonObj.lookup, h2, hne, h]
    · simp [JsonObj.modifyVal, JsonObj.lookup, h2, lookup_modifyVal_other k k' f h t]

/-- `jmodify` at the read key. -/
theorem anyField_jmodify_self (k : String) (f : Json → Json) (j : Json) :
    anyField (jmodify k f j) k = (anyField j k).map f := by
  cases j <;> simp [jmodify, anyField, lookup_modifyVal_self]

/-- `jmodify` at another key. -/
theorem anyField_jmodify_other (k k' : String) (f : Json → Json) (j : Json)
    (h : k' ≠ k) : anyField (jmodify k f j) k' = anyField j k' := by
  cases j <;> simp [jmodify, anyField, lookup_modifyVal_other _ _ _ h]

/-- A successful property read happens on an object. -/
theorem anyField_some_obj (j : Json) (k : String) (v : Json)
    (h : anyField j k = some v) : ∃ o, j = .obj o := by
  cases j <;> simp [anyField] at h <;> exact ⟨_, rfl⟩

/-- Unfolding of a successful truthy property read. -/
theorem truthyField_some_iff (j : Json) (k : String) (v : Json) :
    truthyField j k = some v ↔ anyField j k = some v ∧ truthy v = true := by
  unfold truthyField
  cases h : anyField j k with
  | none => simp
  | some w =>
    by_cases ht : truthy w
    · simp only [ht, if_pos]
      constructor
      · intro hv
        cases hv
        exact ⟨rfl, ht⟩
      · rintro ⟨hw, _⟩
        exact hw
    · simp only [ht, if_neg]
      constructor
      · intro hv
        exact absurd hv (by simp)
      · rintro ⟨hw, hv⟩
        cases hw
        exact absurd hv (by simp [ht])

/-- Inversion of a successful `oneOf` extraction. -/
theorem oneOfArrOf_some (x : Json) (L : JsonList) (h : oneOfArrOf x = some L) :
    anyField x "oneOf" = some (.arr L) := by
  unfold oneOfArrOf at h
  cases hw : anyField x "oneOf" with
  | none =>
    rw [hw] at h
    exact absurd h (by simp)
  | some w =>
    rw [hw] at h
    cases w with
    | arr l =>
      simp at h
      subst h
      rfl
    | null => simp at h
    | bool b => simp at h
    | num n => simp at h
    | str s => simp at h
    | obj o => simp at h

/-- Inversion of a successful alternation read: the two truthy property
steps and the `oneOf` extraction all succeeded. -/
theorem pathOneOf_some_inv (ck : String) (j : Json) (L : JsonList)
    (h : pathOneOf ck j = some L) :
    ∃ P C, truthyField j "properties" = some P ∧ truthyField P ck = some C ∧
      oneOfArrOf (jsOr (anyField C "items") (.obj .nil)) = some L := by
  unfold pathOneOf at h
  cases hp : truthyField j "properties" with
  | none =>
    rw [hp] at h
    exact absurd (h : (none : Option JsonList) = some L) (by simp)
  | some P =>
    rw [hp] at h
    have h2 : (match truthyField P ck with
      | none => none
      | some child => oneOfArrOf (jsOr (anyField child "items") (Json.obj JsonObj.nil))) =
        some L := h
    cases hc : truthyField P ck with
    | none =>
      rw [hc] at h2
      exact absurd (h2 : (none : Option JsonList) = some L) (by simp)
    | some C =>
      rw [hc] at h2
      exact ⟨P, C, rfl, hc, h2⟩

/-- A value whose guards fail is untouched by the in-place rewrite. -/
theorem updateOneOf_of_none (ck : String) (g : Json → Json) (j : Json)
    (h : pathOneOf ck j = none) : updateOneOf ck g j = j := by
  simp [updateOneOf, h]

/-- The in-place rewrite maps the alternation pointwise and the guards still
pass: reading the path back yields the mapped list. -/
theorem pathOneOf_update (ck : String) (g : Json → Json) (j : Json) (L : JsonList)
    (h : pathOneOf ck j = some L) :
    pathOneOf ck (updateOneOf ck g j) = some (jlMap g L) := by
  have hupd : updateOneOf ck g j =
      jmodify "properties" (jmodify ck (jmodify "items" (jmodify "oneOf" (mapIfArr g)))) j := by
    simp [updateOneOf, h]
  obtain ⟨P, C, hp, hc, hrest⟩ := pathOneOf_some_inv ck j L h
  cases hi : anyField C "items" with
  | none =>
    rw [hi] at hrest
    exact absurd hrest (by simp [jsOr, oneOfArrOf, anyField, JsonObj.lookup])
  | some I =>
    rw [hi] at hrest
    by_cases ht : truthy I
    · rw [show jsOr (some I) (.obj .nil) = I from by simp [jsOr, ht]] at hrest
      have hone : anyField I "oneOf" = some (.arr L) := oneOfArrOf_some I L hrest
      obtain ⟨io, rfl⟩ := anyField_some_obj _ _ _ hone
      obtain ⟨co, rfl⟩ := anyField_some_obj _ _ _ hi
      have hcp := (truthyField_some_iff _ _ _).mp hc
      obtain ⟨po, rfl⟩ := anyField_some_obj _ _ _ hcp.1
      have hpp := (truthyField_some_iff _ _ _).mp hp
      obtain ⟨jo, rfl⟩ := anyField_some_obj _ _ _ hpp.1
      rw [hupd]
      have h1 : truthyField
          (jmodify "properties" (jmodify ck (jmodify "items" (jmodify "oneOf" (mapIfArr g)))) (.obj jo))
          "properties" =
          some (jmodify ck (jmodify "items" (jmodify "oneOf" (mapIfArr g))) (.obj po)) := by
        rw [truthyField_some_iff, anyField_jmodify_self, hpp.1]
        exact ⟨rfl, rfl⟩
      have h2 : truthyField
          (jmodify ck (jmodify "items" (jmodify "oneOf" (mapIfArr g))) (.obj po)) ck =
          some (jmodify "items" (jmodify "oneOf" (mapIfArr g)) (.obj co)) := by
        rw [truthyField_some_iff, anyField_jmodify_self, hcp.1]
        exact ⟨rfl, rfl⟩
      have h3 : anyField (jmodify "items" (jmodify "oneOf" (mapIfArr g)) (.obj co)) "items" =
          some (jmodify "oneOf" (mapIfArr g) (.obj io)) := by
        rw [anyField_jmodify_self, hi]
        rfl
      have h5 : oneOfArrOf (jmodify "oneOf" (mapIfArr g) (.obj io)) = some (jlMap g L) := by
        unfold oneOfArrOf
        rw [anyField_jmodify_self, hone]
        rfl
      simp only [pathOneOf, h1, h2, h3]
      rw [show jsOr (some (jmodify "oneOf" (mapIfArr g) (.obj io))) (.obj .nil) =
        jmodify "oneOf" (mapIfArr g) (.obj io) from by simp [jsOr, jmodify, truthy]]
      exact h5
    · rw [show jsOr (some I) (.obj .nil) = Json.obj .nil from by simp [jsOr, ht]] at hrest
      exact absurd hrest (by simp [oneOfArrOf, anyField, JsonObj.lookup])

/-- Per sheet, the in-place block-slot rewrite maps the collected slots. -/
theorem blocksOneOfOf_replace_toList (f : Json → Json) (sheet : Json) :
    (match blocksOneOfOf (replaceBlocksOneOf f sheet) with
     | none => ([] : List Json)
     | some l => l.toList) =
      (match blocksOneOfOf sheet with
       | none => ([] : List Json)
       | some l => l.toList).map f := by
  cases h : blocksOneOfOf sheet with
  | none =>
    rw [show replaceBlocksOneOf f sheet = sheet from updateOneOf_of_none _ _ _ h]
    rw [h]
    rfl
  | some L =>
    rw [show blocksOneOfOf (replaceBlocksOneOf f sheet) = some (jlMap f L) from
      pathOneOf_update "blocks" f sheet L h]
    simp [jlMap_toList]

/-- The in-place slot rewrite of the deduplicators, seen through slot
collection: it maps each collected block slot, preserving sheet order, slot
order and every alternation's length. -/
theorem collect_mapBlockSlots (f : Json → Json) (root : Json) :
    collectBlockSlots (mapBlockSlots f root) = (collectBlockSlots root).map f := by
  cases h : sheetsOneOfOf root with
  | none =>
    rw [show mapBlockSlots f root = root from updateOneOf_of_none _ _ _ h]
    simp [collectBlockSlots, h]
  | some sheets =>
    have h2 : sheetsOneOfOf (mapBlockSlots f root) =
        some (jlMap (replaceBlocksOneOf f) sheets) :=
      pathOneOf_update "sheets" _ root sheets h
    simp only [collectBlockSlots, h, h2, jlMap_toList]
    induction sheets.toList with
    | nil => rfl
    | cons s rest ih =>
      simp only [List.map_cons, List.flatMap_cons, List.map_append, ih]
      rw [blocksOneOfOf_replace_toList]

/-- Reading back the key just written. -/
theorem lookupDef_upsertDef_self (l : List (String × Json)) (n : String) (v : Json) :
    lookupDef (upsertDef l n v) n = some v := by
  induction l with
  | nil => simp [upsertDef, lookupDef]
  | cons p t ih =>
    by_cases h : p.1 = n
    · simp [upsertDef, lookupDef, h]
    · simp [upsertDef, lookupDef, h, ih]

/-- Writing one key leaves the others unchanged. -/
theorem lookupDef_upsertDef_other (l : List (String × Json)) (n n' : String) (v : Json)
    (h : n' ≠ n) : lookupDef (upsertDef l n v) n' = lookupDef l n' := by
  have hns : n ≠ n' := Ne.symm h
  induction l with
  | nil => simp [upsertDef, lookupDef, hns]
  | cons p t ih =>
    by_cases hp : p.1 = n
    · simp [upsertDef, lookupDef, hp, hns]
    · simp [upsertDef, lookupDef, hp, ih]

/-- Keys present after a property write. -/
theorem mem_keys_upsertDef (l : List (String × Json)) (n m : String) (v : Json) :
    m ∈ (upsertDef l n v).map Prod.fst ↔ m ∈ l.map Prod.fst ∨ m = n := by
  induction l with
  | nil => simp [upsertDef]
  | cons p t ih =>
    by_cases hp : p.1 = n
    · subst hp
      rw [show upsertDef (p :: t) p.1 v = (p.1, v) :: t from by simp [upsertDef]]
      simp only [List.map_cons, List.mem_cons]
      tauto
    · simp only [upsertDef, if_neg hp, List.map_cons, List.mem_cons, ih]
      tauto

/-- A property write keeps the definition keys pairwise distinct. -/
theorem nodup_upsertDef (l : List (String × Json)) (n : String) (v : Json)
    (h : (l.map Prod.fst).Nodup) : ((upsertDef l n v).map Prod.fst).Nodup := by
  induction l with
  | nil => simp [upsertDef]
  | cons p t ih =>
    simp only [List.map_cons, List.nodup_cons] at h
    by_cases hp : p.1 = n
    · simp only [upsertDef, if_pos hp, List.map_cons, List.nodup_cons]
      exact ⟨hp ▸ h.1, h.2⟩
    · simp only [upsertDef, if_neg hp, List.map_cons, List.nodup_cons]
      refine ⟨fun hm => ?_, ih h.2⟩
      rcases (mem_keys_upsertDef t n p.1 v).mp hm with hm' | he
      · exact h.1 hm'
      · exact hp he

/-- The definitions object built by the repeated-keys fold: the entry under
a name is the last repeated key deriving that name (later writes under a
shared name overwrite earlier ones, JS object semantics). -/
theorem lookupDef_foldl_upsertDef (defName : Json → String) (reps : List Json)
    (acc : List (String × Json)) (n : String) :
    lookupDef (reps.foldl (fun a k => upsertDef a (defName k) k) acc) n =
      (match reps.reverse.find? (fun k => defName k == n) with
       | some k => some k
       | none => lookupDef acc n) := by
  induction reps generalizing acc with
  | nil => simp
  | cons k ks ih =>
    simp only [List.foldl_cons, List.reverse_cons, ih, List.find?_append]
    cases hf : ks.reverse.find? (fun k => defName k == n) with
    | some k' => simp [Option.or]
    | none =>
      simp only [Option.or]
      by_cases hd : defName k = n
      · simp only [List.find?, hd, beq_self_eq_true]
        exact hd ▸ lookupDef_upsertDef_self acc (defName k) k
      · have : (defName k == n) = false := by simp [hd]
        simp only [List.find?, this]
        exact lookupDef_upsertDef_other acc (defName k) n k (fun he => hd he.symm)

/-- The fold keeps definition keys pairwise distinct. -/
theorem nodup_foldl_upsertDef (defName : Json → String) (reps : List Json)
    (acc : List (String × Json)) (h : (acc.map Prod.fst).Nodup) :
    ((reps.foldl (fun a k => upsertDef a (defName k) k) acc).map Prod.fst).Nodup := by
  induction reps generalizing acc with
  | nil => exact h
  | cons k ks ih => exact ih _ (nodup_upsertDef acc (defName k) k h)

/-- A predicate holding at a unique element of a list finds exactly it. -/
theorem find?_of_unique (p : Json → Bool) (l : List Json) (k : Json)
    (hk : k ∈ l) (hp : p k = true) (huniq : ∀ k' ∈ l, p k' = true → k' = k) :
    l.find? p = some k := by
  induction l with
  | nil => exact absurd hk (by simp)
  | cons x xs ih =>
    by_cases hx : p x = true
    · have hxe : x = k := huniq x (by simp) hx
      subst hxe
      simp [List.find?, hx]
    · have hx' : p x = false := by simpa using hx
      have hxk : x ≠ k := by
        intro he
        rw [he, hp] at hx'
        cases hx'
      have hk' : k ∈ xs := by
        rcases List.mem_cons.mp hk with he | hm
        · exact absurd he.symm hxk
        · exact hm
      simp only [List.find?, hx']
      exact ih hk' (fun k' hk'' hp' => huniq k' (by simp [hk'']) hp')

/-- Behaviour of the shared deduplicator shape: the slot rewrite maps every
collected slot in place, and the definitions map is the overwrite-fold of
the repeated keys under their derived names. -/
theorem dedupBlocks_spec (key : Json → Json) (defName : Json → String) (root : Json) :
    collectBlockSlots (dedupBlocks key defName root).1 =
      (collectBlockSlots root).map (fun b =>
        if 1 < (dedupKeyed key root).count (key b) then mkRef (defName (key b)) else b) ∧
    (∀ n, lookupDef (dedupBlocks key defName root).2 n =
      (match (dedupRepeatedKeys key root).reverse.find? (fun k => defName k == n) with
       | some k => some k
       | none => none)) ∧
    (((dedupBlocks key defName root).2).map Prod.fst).Nodup := by
  refine ⟨?_, ?_, ?_⟩
  · exact collect_mapBlockSlots _ root
  · intro n
    exact lookupDef_foldl_upsertDef defName (dedupRepeatedKeys key root) [] n
  · exact nodup_foldl_upsertDef defName _ [] (by simp)

/-- A repeated key whose derived name no other repeated key shares is stored
in the definitions map under that name. -/
theorem dedupBlocks_lookup_unique (key : Json → Json) (defName : Json → String)
    (root : Json) (k : Json) (hk : k ∈ dedupRepeatedKeys key root)
    (huniq : ∀ k' ∈ dedupRepeatedKeys key root, defName k' = defName k → k' = k) :
    lookupDef (dedupBlocks key defName root).2 (defName k) = some k := by
  rw [(dedupBlocks_spec key defName root).2.1 (defName k)]
  rw [find?_of_unique (fun k' => defName k' == defName k) _ k
    (List.mem_reverse.mpr hk) (by simp)
    (fun k' hk' hp => huniq k' (List.mem_reverse.mp hk') (by simpa using hp))]

/-- C6 (amended): after deduplication, in both front-ends, every block slot
keeps its position — the alternation lengths and slot order are preserved —
with a repeated-fingerprint slot replaced in place by a `$ref` to the
derived definition name and a single-occurrence slot left inlined; the
definitions map holds pairwise-distinct names; a repeated fingerprint whose
derived name no other repeated fingerprint shares appears exactly once in
the definitions map, stored under that name; and when several repeated
fingerprints derive the same name, the entry under that name is the
last-enumerated one — the later definition silently overwrites the earlier.
The spreadsheet front-end keys by the block's literal name enumeration; the
instance-inference front-end appends the char-code-sum hash of the canonical
string (its bundle is stated under the condition that every slot carries the
`properties.name.enum` path, without which the source throws before
deduplicating). -/
theorem c6_dedup_definitions (root : Json) :
    ((collectBlockSlots (excelDeduplicateBlocks root).1).length =
        (collectBlockSlots root).length ∧
      (∀ i b, (collectBlockSlots root).get? i = some b →
        ((dedupKeyed canon root).count (canon b) ≤ 1 →
          (collectBlockSlots (excelDeduplicateBlocks root).1).get? i = some b) ∧
        (1 < (dedupKeyed canon root).count (canon b) →
          (collectBlockSlots (excelDeduplicateBlocks root).1).get? i =
            some (mkRef (excelDefName (canon b))))) ∧
      ((excelDeduplicateBlocks root).2.map Prod.fst).Nodup ∧
      (∀ k ∈ dedupRepeatedKeys canon root,
        (∀ k' ∈ dedupRepeatedKeys canon root, excelDefName k' = excelDefName k → k' = k) →
        lookupDef (excelDeduplicateBlocks root).2 (excelDefName k) = some k) ∧
      (∀ n, lookupDef (excelDeduplicateBlocks root).2 n =
        (match (dedupRepeatedKeys canon root).reverse.find?
            (fun k => excelDefName k == n) with
         | some k => some k
         | none => none))) ∧
    ((∀ b ∈ collectBlockSlots root, jsonNameOk b = true) →
      ((collectBlockSlots (jsonDeduplicateBlocks root).1).length =
          (collectBlockSlots root).length ∧
        (∀ i b, (collectBlockSlots root).get? i = some b →
          ((dedupKeyed id root).count b ≤ 1 →
            (collectBlockSlots (jsonDeduplicateBlocks root).1).get? i = some b) ∧
          (1 < (dedupKeyed id root).count b →
            (collectBlockSlots (jsonDeduplicateBlocks root).1).get? i =
              some (mkRef (jsonDefName b)))) ∧
        ((jsonDeduplicateBlocks root).2.map Prod.fst).Nodup ∧
        (∀ k ∈ dedupRepeatedKeys id root,
          (∀ k' ∈ dedupRepeatedKeys id root, jsonDefName k' = jsonDefName k → k' = k) →
          lookupDef (jsonDeduplicateBlocks root).2 (jsonDefName k) = some k) ∧
        (∀ n, lookupDef (jsonDeduplicateBlocks root).2 n =
          (match (dedupRepeatedKeys id root).reverse.find?
              (fun k => jsonDefName k == n) with
           | some k => some k
           | none => none)))) := by
  have hex := dedupBlocks_spec canon excelDefName root
  have hjs := dedupBlocks_spec id jsonDefName root
  unfold excelDeduplicateBlocks jsonDeduplicateBlocks
  constructor
  · refine ⟨by rw [hex.1]; simp, fun i b hib => ?_, hex.2.2,
      fun k hk huniq => dedupBlocks_lookup_unique canon excelDefName root k hk huniq,
      hex.2.1⟩
    constructor
    · intro hle
      rw [hex.1, List.get?_map, hib]
      have hn : ¬ 1 < (dedupKeyed canon root).count (canon b) := by omega
      simp [hn]
    · intro hlt
      rw [hex.1, List.get?_map, hib]
      simp [hlt]
  · intro _
    refine ⟨by rw [hjs.1]; simp, fun i b hib => ?_, hjs.2.2,
      fun k hk huniq => dedupBlocks_lookup_unique id jsonDefName root k hk huniq,
      hjs.2.1⟩
    constructor
    · intro hle
      rw [hjs.1, List.get?_map, hib]
      have hn : ¬ 1 < List.count b (dedupKeyed id root) := by omega
      simp [hn]
    · intro hlt
      rw [hjs.1, List.get?_map, hib]
      simp [hlt]

/-- Witness for `c6_dedup_definitions`: in `sharedSchema` the block repeated
on both sheets is hoisted once under its literal name, and its second slot is
replaced by the reference. -/
theorem c6_dedup_definitions_witness :
    lookupDef (excelDeduplicateBlocks sharedSchema).2 "dup_table" =
      some (canon (buildTableBlockSchema (dupBlock "a"))) ∧
    (collectBlockSlots (excelDeduplicateBlocks sharedSchema).1).get? 1 =
      some (mkRef "dup_table") := by
  constructor
  · exact (c6_dedup_definitions sharedSchema).1.2.2.2.1
      (canon (buildTableBlockSchema (dupBlock "a"))) (by decide) (by decide)
  · exact ((c6_dedup_definitions sharedSchema).1.2.1 1
      (buildTableBlockSchema (dupBlock "a")) (by decide)).2 (by decide)

/-- Counterexample to C6 as stated: in `collidingSchema` both structurally
different `dup_table` fingerprints occur twice, both derive the definition
name `dup_table`, and the definitions map ends up holding only the later
fingerprint — the earlier repeated fingerprint appears nowhere in it. -/
theorem c6_name_collision_counterexample :
    1 < (dedupKeyed canon collidingSchema).count
      (canon (buildTableBlockSchema (dupBlock "a"))) ∧
    1 < (dedupKeyed canon collidingSchema).count
      (canon (buildTableBlockSchema (dupBlock "b"))) ∧
    excelDefName (canon (buildTableBlockSchema (dupBlock "a"))) =
      excelDefName (canon (buildTableBlockSchema (dupBlock "b"))) ∧
    canon (buildTableBlockSchema (dupBlock "a")) ≠
      canon (buildTableBlockSchema (dupBlock "b")) ∧
    (excelDeduplicateBlocks collidingSchema).2.map Prod.snd =
      [canon (buildTableBlockSchema (dupBlock "b"))] := by
  decide

/-- C2: deduplicating `collidingSchema` is not a pure rewrite of
representation.  The first slot holds the shape-`a` block, whose canonical
fingerprint occurs twice; after deduplication that slot is a `$ref` to
`#/definitions/dup_table`, but the definitions entry of that name is the
canonicalized shape-`b` block — structurally different from the original
slot — so replacing the produced `$ref` by the entry it points to does not
reproduce the pre-deduplication IR, and the position now resolves to a
different concrete block schema. -/
theorem c2_dedup_changes_resolution :
    (collectBlockSlots collidingSchema).get? 0 =
      some (buildTableBlockSchema (dupBlock "a")) ∧
    1 < (dedupKeyed canon collidingSchema).count
      (canon (buildTableBlockSchema (dupBlock "a"))) ∧
    (collectBlockSlots (excelDeduplicateBlocks collidingSchema).1).get? 0 =
      some (mkRef "dup_table") ∧
    (excelDeduplicateBlocks collidingSchema).2 =
      [("dup_table", canon (buildTableBlockSchema (dupBlock "b")))] ∧
    canon (buildTableBlockSchema (dupBlock "a")) ≠
      canon (buildTableBlockSchema (dupBlock "b")) ∧
    resolveIfRef 1 (some (mkRef "dup_table"))
      (attachDefinitions (excelDeduplicateBlocks collidingSchema).1
        (excelDeduplicateBlocks collidingSchema).2) =
      .ok (some (canon (buildTableBlockSchema (dupBlock "b")))) := by
  decide

/-! ### Canonical fingerprint: order theory and object transport -/

/-- Round trip from pairs to objects. -/
theorem toPairs_jobj (l : List (String × Json)) : (jobj l).toPairs = l := by
  induction l with
  | nil => rfl
  | cons p t ih =>
    match p with
    | (k, v) => simp [jobj, JsonObj.toPairs, ih]

/-- The keys of the pair image are the object's keys. -/
theorem map_fst_toPairs : ∀ (o : JsonObj), o.toPairs.map Prod.fst = o.keys
  | .nil => rfl
  | .cons k v t => by simp [JsonObj.toPairs, JsonObj.keys, map_fst_toPairs t]

/-- Lookup through the pair image. -/
theorem pairsLookup_toPairs : ∀ (o : JsonObj) (k : String),
    pairsLookup o.toPairs k = o.lookup k
  | .nil, _ => rfl
  | .cons k' v t, k => by
    simp only [JsonObj.toPairs, pairsLookup, JsonObj.lookup]
    by_cases h : k' = k
    · simp [h]
    · simp [h, pairsLookup_toPairs t k]

/-- Lookup on a rebuilt object. -/
theorem lookup_jobj (l : List (String × Json)) (k : String) :
    (jobj l).lookup k = pairsLookup l k := by
  induction l with
  | nil => rfl
  | cons p t ih =>
    match p with
    | (k', v) =>
      simp only [jobj, JsonObj.lookup, pairsLookup]
      by_cases h : k' = k
      · simp [h]
      · simp [h, ih]

/-- Canonicalizing object values preserves lookups up to `canon`. -/
theorem canonObj_lookup : ∀ (o : JsonObj) (k : String),
    (canonObj o).lookup k = (o.lookup k).map canon
  | .nil, _ => rfl
  | .cons k' v t, k => by
    simp only [canonObj, JsonObj.lookup]
    by_cases h : k' = k
    · simp [h]
    · simp [h, canonObj_lookup t k]

/-- Canonicalizing object values preserves the keys. -/
theorem canonObj_keys : ∀ (o : JsonObj), (canonObj o).keys = o.keys
  | .nil => rfl
  | .cons k v t => by simp [canonObj, JsonObj.keys, canonObj_keys t]

/-- Distinct-key checking is `List.Nodup`. -/
theorem distinctKeys_iff_nodup (l : List String) : distinctKeys l = true ↔ l.Nodup := by
  induction l with
  | nil => simp [distinctKeys]
  | cons k t ih =>
    simp [distinctKeys, ih, List.nodup_cons]

/-- Code-point order on character lists is total. -/
theorem charListLe_total : ∀ (a b : List Char),
    charListLe a b = true ∨ charListLe b a = true
  | [], _ => Or.inl rfl
  | _ :: _, [] => Or.inr rfl
  | c :: cs, d :: ds => by
    rcases Nat.lt_trichotomy c.toNat d.toNat with h | h | h
    · left
      simp [charListLe, h]
    · have h1 : ¬ c.toNat < d.toNat := by omega
      have h2 : ¬ d.toNat < c.toNat := by omega
      rcases charListLe_total cs ds with hr | hr
      · left
        simp only [charListLe]
        rw [if_neg h1, if_neg h2]
        exact hr
      · right
        simp only [charListLe]
        rw [if_neg h2, if_neg h1]
        exact hr
    · right
      simp [charListLe, h]

/-- Code-point order on character lists is transitive. -/
theorem charListLe_trans : ∀ (a b c : List Char),
    charListLe a b = true → charListLe b c = true → charListLe a c = true
  | [], _, _ => fun _ _ => rfl
  | _ :: _, [], _ => fun h _ => by simp [charListLe] at h
  | _ :: _, _ :: _, [] => fun _ h => by simp [charListLe] at h
  | a :: as, b :: bs, c :: cs => fun h1 h2 => by
    simp only [charListLe] at h1 h2 ⊢
    by_cases hab : a.toNat < b.toNat
    · by_cases hbc : b.toNat < c.toNat
      · rw [if_pos (by omega)]
      · rw [if_neg hbc] at h2
        by_cases hcb : c.toNat < b.toNat
        · rw [if_pos hcb] at h2
          cases h2
        · rw [if_pos (by omega)]
    · rw [if_neg hab] at h1
      by_cases hba : b.toNat < a.toNat
      · rw [if_pos hba] at h1
        cases h1
      · rw [if_neg hba] at h1
        by_cases hbc : b.toNat < c.toNat
        · rw [if_pos (by omega)]
        · rw [if_neg hbc] at h2
          by_cases hcb : c.toNat < b.toNat
          · rw [if_pos hcb] at h2
            cases h2
          · rw [if_neg hcb] at h2
            rw [if_neg (by omega), if_neg (by omega)]
            exact charListLe_trans as bs cs h1 h2

/-- Code-point order: mutual bounds force equality of the lists. -/
theorem charListLe_antisymm : ∀ (a b : List Char),
    charListLe a b = true → charListLe b a = true → a = b
  | [], [] => fun _ _ => rfl
  | [], _ :: _ => fun _ h => by simp [charListLe] at h
  | _ :: _, [] => fun h _ => by simp [charListLe] at h
  | a :: as, b :: bs => fun h1 h2 => by
    simp only [charListLe] at h1 h2
    by_cases hab : a.toNat < b.toNat
    · rw [if_neg (by omega), if_pos hab] at h2
      cases h2
    · by_cases hba : b.toNat < a.toNat
      · rw [if_neg hab, if_pos hba] at h1
        cases h1
      · rw [if_neg hab, if_neg hba] at h1
        rw [if_neg hba, if_neg hab] at h2
        have hn : a.toNat = b.toNat := by omega
        have ha : a = b := by
          apply Char.ext
          apply UInt32.ext
          simpa [Char.toNat] using hn
        rw [ha, charListLe_antisymm as bs h1 h2]

instance : IsTotal (String × Json) keyLe :=
  ⟨fun a b => charListLe_total a.1.data b.1.data⟩

instance : IsTrans (String × Json) keyLe :=
  ⟨fun a b c => charListLe_trans a.1.data b.1.data c.1.data⟩

/-- Key order bounds in both directions force equal keys. -/
theorem keyLe_antisymm_fst (a b : String × Json) (h1 : keyLe a b) (h2 : keyLe b a) :
    a.1 = b.1 := by
  have hd : a.1.data = b.1.data := charListLe_antisymm _ _ h1 h2
  cases ha : a.1 with
  | mk la =>
    cases hb : b.1 with
    | mk lb =>
      rw [ha, hb] at hd
      exact congrArg String.mk (by simpa using hd)

/-- An absent key reads as `none`. -/
theorem pairsLookup_eq_none_iff (l : List (String × Json)) (k : String) :
    pairsLookup l k = none ↔ k ∉ l.map Prod.fst := by
  induction l with
  | nil => simp [pairsLookup]
  | cons p t ih =>
    by_cases h : p.1 = k
    · simp [pairsLookup, h]
    · rw [show pairsLookup (p :: t) k = pairsLookup t k from by simp [pairsLookup, h]]
      rw [ih]
      simp only [List.map_cons, List.mem_cons]
      constructor
      · intro hk hmem
        rcases hmem with he | hm
        · exact h he.symm
        · exact hk hm
      · intro hk hm
        exact hk (Or.inr hm)

/-- With distinct keys, a successful read is membership of the entry. -/
theorem pairsLookup_eq_some_iff_mem (l : List (String × Json)) (k : String) (v : Json)
    (hnd : (l.map Prod.fst).Nodup) :
    pairsLookup l k = some v ↔ (k, v) ∈ l := by
  induction l with
  | nil => simp [pairsLookup]
  | cons p t ih =>
    obtain ⟨pk, pv⟩ := p
    simp only [List.map_cons, List.nodup_cons] at hnd
    by_cases h : pk = k
    · subst h
      simp only [pairsLookup, if_pos rfl, List.mem_cons]
      constructor
      · intro hv
        cases hv
        exact Or.inl rfl
      · rintro (he | hm)
        · cases he
          rfl
        · exact absurd (List.mem_map_of_mem Prod.fst hm) hnd.1
    · simp only [pairsLookup, if_neg h, List.mem_cons, ih hnd.2]
      constructor
      · exact Or.inr
      · rintro (he | hm)
        · cases he
          exact absurd rfl h
        · exact hm

/-- With distinct keys on one side, permuted pair lists read alike. -/
theorem pairsLookup_perm (l₁ l₂ : List (String × Json)) (hp : l₁.Perm l₂)
    (hnd : (l₁.map Prod.fst).Nodup) (k : String) :
    pairsLookup l₁ k = pairsLookup l₂ k := by
  have hnd₂ : (l₂.map Prod.fst).Nodup := ((hp.map Prod.fst).nodup_iff).mp hnd
  cases h : pairsLookup l₁ k with
  | none =>
    have hk := (pairsLookup_eq_none_iff l₁ k).mp h
    have hk₂ : k ∉ l₂.map Prod.fst := fun hm => hk (((hp.map Prod.fst).mem_iff).mpr hm)
    exact ((pairsLookup_eq_none_iff l₂ k).mpr hk₂).symm
  | some v =>
    have hm := (pairsLookup_eq_some_iff_mem l₁ k v hnd).mp h
    exact ((pairsLookup_eq_some_iff_mem l₂ k v hnd₂).mpr (hp.mem_iff.mp hm)).symm

/-- Two pair lists with distinct keys and identical reads are permutations
of one another. -/
theorem perm_of_pairsLookup_eq (l₁ l₂ : List (String × Json))
    (h1 : (l₁.map Prod.fst).Nodup) (h2 : (l₂.map Prod.fst).Nodup)
    (h : ∀ k, pairsLookup l₁ k = pairsLookup l₂ k) : l₁.Perm l₂ := by
  refine (List.perm_ext_iff_of_nodup (List.Nodup.of_map _ h1) (List.Nodup.of_map _ h2)).mpr ?_
  intro a
  obtain ⟨k, v⟩ := a
  rw [← pairsLookup_eq_some_iff_mem l₁ k v h1, ← pairsLookup_eq_some_iff_mem l₂ k v h2, h k]

/-- Sorting pairs is a permutation. -/
theorem sortPairs_perm (l : List (String × Json)) : (sortPairs l).Perm l :=
  List.perm_insertionSort keyLe l

/-- Permuted pair lists with distinct keys sort identically: the canonical
key order is strict on them. -/
theorem sortPairs_eq_of_perm (l₁ l₂ : List (String × Json)) (hp : l₁.Perm l₂)
    (hnd : (l₁.map Prod.fst).Nodup) : sortPairs l₁ = sortPairs l₂ := by
  have hperm : (sortPairs l₁).Perm (sortPairs l₂) :=
    (sortPairs_perm l₁).trans (hp.trans (sortPairs_perm l₂).symm)
  have hs₁ : List.Sorted keyLe (sortPairs l₁) := List.sorted_insertionSort keyLe l₁
  have hs₂ : List.Sorted keyLe (sortPairs l₂) := List.sorted_insertionSort keyLe l₂
  have hnd₁ : ((sortPairs l₁).map Prod.fst).Nodup :=
    (((sortPairs_perm l₁).map Prod.fst).nodup_iff).mpr hnd
  have hndl₂ : (l₂.map Prod.fst).Nodup := ((hp.map Prod.fst).nodup_iff).mp hnd
  have hnd₂ : ((sortPairs l₂).map Prod.fst).Nodup :=
    (((sortPairs_perm l₂).map Prod.fst).nodup_iff).mpr hndl₂
  have hstrict₁ : List.Pairwise (fun a b : String × Json => keyLe a b ∧ a.1 ≠ b.1)
      (sortPairs l₁) :=
    List.Pairwise.and hs₁ (List.pairwise_map.mp hnd₁)
  have hstrict₂ : List.Pairwise (fun a b : String × Json => keyLe a b ∧ a.1 ≠ b.1)
      (sortPairs l₂) :=
    List.Pairwise.and hs₂ (List.pairwise_map.mp hnd₂)
  haveI : IsAntisymm (String × Json) (fun a b => keyLe a b ∧ a.1 ≠ b.1) :=
    ⟨fun a b hab hba => absurd (keyLe_antisymm_fst a b hab.1 hba.1) hab.2⟩
  exact List.eq_of_perm_of_sorted hperm hstrict₁ hstrict₂

/-- Parts of object well-formedness. -/
theorem jwf_obj_parts (o : JsonObj) (h : jwf (.obj o) = true) :
    o.keys.Nodup ∧ jwfObj o = true := by
  simp only [jwf, Bool.and_eq_true] at h
  exact ⟨(distinctKeys_iff_nodup _).mp h.1, h.2⟩

/-- Values of a well-formed object are well-formed. -/
theorem jwfObj_lookup : ∀ (o : JsonObj) (k : String) (v : Json),
    jwfObj o = true → o.lookup k = some v → jwf v = true
  | .nil, _, _ => fun _ hl => absurd hl (by simp [JsonObj.lookup])
  | .cons k' v' t, k, v => fun hw hl => by
    simp only [jwfObj, Bool.and_eq_true] at hw
    simp only [JsonObj.lookup] at hl
    by_cases h : k' = k
    · rw [if_pos h] at hl
      cases hl
      exact hw.1
    · rw [if_neg h] at hl
      exact jwfObj_lookup t k v hw.2 hl

/-- Looking up the key-sorted canonical image of an object reads the
original value through `canon`. -/
theorem lookup_canon_obj (o : JsonObj) (k : String) (hnd : o.keys.Nodup) :
    (jobj (sortPairs (canonObj o).toPairs)).lookup k = (o.lookup k).map canon := by
  rw [lookup_jobj]
  have hndp : (((canonObj o).toPairs).map Prod.fst).Nodup := by
    rw [map_fst_toPairs, canonObj_keys]
    exact hnd
  have hnds : ((sortPairs ((canonObj o).toPairs)).map Prod.fst).Nodup :=
    (((sortPairs_perm _).map Prod.fst).nodup_iff).mpr hndp
  rw [pairsLookup_perm (sortPairs ((canonObj o).toPairs)) ((canonObj o).toPairs)
    (sortPairs_perm _) hnds k]
  rw [pairsLookup_toPairs, canonObj_lookup]

mutual
/-- Every well-formed value is equivalent to its canonical image. -/
theorem jequiv_canon : ∀ (j : Json), jwf j = true → JEquiv j (canon j)
  | .null, _ => JEquiv.null
  | .bool b, _ => JEquiv.bool b
  | .num n, _ => JEquiv.num n
  | .str s, _ => JEquiv.str s
  | .arr xs, h => JEquiv.arr xs (canonList xs) (jlequiv_canonList xs h)
  | .obj o, h => by
    have hparts := jwf_obj_parts o h
    show JEquiv (.obj o) (.obj (jobj (sortPairs (canonObj o).toPairs)))
    refine JEquiv.obj o (jobj (sortPairs (canonObj o).toPairs)) ?_ ?_
    · intro k
      rw [lookup_canon_obj o k hparts.1]
      cases o.lookup k <;> simp
    · intro k v w hv hw
      rw [lookup_canon_obj o k hparts.1, hv] at hw
      cases hw
      exact jequiv_canonObjVals o k v hparts.2 hv
  termination_by structural j => j
/-- Elementwise version of `jequiv_canon` for arrays. -/
theorem jlequiv_canonList : ∀ (l : JsonList), jwfList l = true → JListEquiv l (canonList l)
  | .nil, _ => JListEquiv.nil
  | .cons x xs, h => by
    simp only [jwfList, Bool.and_eq_true] at h
    exact JListEquiv.cons x (canon x) xs (canonList xs)
      (jequiv_canon x h.1) (jlequiv_canonList xs h.2)
  termination_by structural l => l
/-- Value-wise version of `jequiv_canon` for object entries. -/
theorem jequiv_canonObjVals : ∀ (o : JsonObj) (k : String) (v : Json),
    jwfObj o = true → o.lookup k = some v → JEquiv v (canon v)
  | .nil, _, _ => fun _ hl => absurd hl (by simp [JsonObj.lookup])
  | .cons k' v' t, k, v => fun hw hl => by
    simp only [jwfObj, Bool.and_eq_true] at hw
    simp only [JsonObj.lookup] at hl
    by_cases h : k' = k
    · rw [if_pos h] at hl
      cases hl
      exact jequiv_canon v' hw.1
    · rw [if_neg h] at hl
      exact jequiv_canonObjVals t k v hw.2 hl
  termination_by structural o => o
end

/-- A looked-up value is structurally smaller than its object. -/
theorem lookup_sizeOf : ∀ (o : JsonObj) (k : String) (v : Json),
    o.lookup k = some v → sizeOf v < sizeOf o
  | .nil, _, _ => fun hl => absurd hl (by simp [JsonObj.lookup])
  | .cons k' v' t, k, v => fun hl => by
    simp only [JsonObj.lookup] at hl
    by_cases h : k' = k
    · rw [if_pos h] at hl
      cases hl
      simp
      omega
    · rw [if_neg h] at hl
      have := lookup_sizeOf t k v hl
      simp
      omega

/-- Size-bounded symmetry of structural equivalence, for values and for
arrays simultaneously. -/
theorem jequiv_symm_aux : ∀ (n : Nat),
    (∀ a b, sizeOf a ≤ n → JEquiv a b → JEquiv b a) ∧
    (∀ xs ys, sizeOf xs ≤ n → JListEquiv xs ys → JListEquiv ys xs) := by
  intro n
  induction n using Nat.strong_induction_on with
  | _ n ih =>
    constructor
    · intro a b hle h
      cases h with
      | null => exact JEquiv.null
      | bool b => exact JEquiv.bool b
      | num m => exact JEquiv.num m
      | str s => exact JEquiv.str s
      | arr xs ys hl =>
        have hs : sizeOf xs < n := by
          have : sizeOf xs < sizeOf (Json.arr xs) := by simp <;> omega
          omega
        exact JEquiv.arr ys xs ((ih (sizeOf xs) hs).2 xs ys (le_refl _) hl)
      | obj oa ob hiff hvals =>
        refine JEquiv.obj ob oa (fun k => (hiff k).symm) ?_
        intro k v w hv hw
        have hsw : sizeOf w < n := by
          have h1 := lookup_sizeOf oa k w hw
          have : sizeOf oa < sizeOf (Json.obj oa) := by simp <;> omega
          omega
        exact (ih (sizeOf w) hsw).1 w v (le_refl _) (hvals k w v hw hv)
    · intro xs ys hle hl
      cases hl with
      | nil => exact JListEquiv.nil
      | cons x y xs' ys' hxy hl' =>
        have hsx : sizeOf x < n := by
          have : sizeOf x < sizeOf (JsonList.cons x xs') := by simp <;> omega
          omega
        have hsxs : sizeOf xs' < n := by
          have : sizeOf xs' < sizeOf (JsonList.cons x xs') := by simp <;> omega
          omega
        exact JListEquiv.cons y x ys' xs'
          ((ih (sizeOf x) hsx).1 x y (le_refl _) hxy)
          ((ih (sizeOf xs') hsxs).2 xs' ys' (le_refl _) hl')

/-- Structural equivalence is symmetric. -/
theorem jequiv_symm (a b : Json) (h : JEquiv a b) : JEquiv b a :=
  (jequiv_symm_aux (sizeOf a)).1 a b (le_refl _) h

/-- Size-bounded transitivity of structural equivalence. -/
theorem jequiv_trans_aux : ∀ (n : Nat),
    (∀ a b c, sizeOf a ≤ n → JEquiv a b → JEquiv b c → JEquiv a c) ∧
    (∀ xs ys zs, sizeOf xs ≤ n → JListEquiv xs ys → JListEquiv ys zs →
      JListEquiv xs zs) := by
  intro n
  induction n using Nat.strong_induction_on with
  | _ n ih =>
    constructor
    · intro a b c hle h1 h2
      cases h1 with
      | null => exact h2
      | bool b => exact h2
      | num m => exact h2
      | str s => exact h2
      | arr xs ys hl =>
        cases h2 with
        | arr _ zs hl2 =>
          have hs : sizeOf xs < n := by
            have : sizeOf xs < sizeOf (Json.arr xs) := by simp <;> omega
            omega
          exact JEquiv.arr xs zs ((ih (sizeOf xs) hs).2 xs ys zs (le_refl _) hl hl2)
      | obj oa ob hiff hvals =>
        cases h2 with
        | obj _ oc hiff2 hvals2 =>
          refine JEquiv.obj oa oc (fun k => (hiff k).trans (hiff2 k)) ?_
          intro k v w hv hw
          have hbs : (ob.lookup k).isSome := (hiff k).mp (by simp [hv])
          obtain ⟨u, hu⟩ := Option.isSome_iff_exists.mp hbs
          have hsv : sizeOf v < n := by
            have h1 := lookup_sizeOf oa k v hv
            have : sizeOf oa < sizeOf (Json.obj oa) := by simp <;> omega
            omega
          exact (ih (sizeOf v) hsv).1 v u w (le_refl _) (hvals k v u hv hu)
            (hvals2 k u w hu hw)
    · intro xs ys zs hle h1 h2
      cases h1 with
      | nil => exact h2
      | cons x y xs' ys' hxy hl' =>
        cases h2 with
        | cons _ z _ zs' hyz hl2 =>
          have hsx : sizeOf x < n := by
            have : sizeOf x < sizeOf (JsonList.cons x xs') := by simp <;> omega
            omega
          have hsxs : sizeOf xs' < n := by
            have : sizeOf xs' < sizeOf (JsonList.cons x xs') := by simp <;> omega
            omega
          exact JListEquiv.cons x z xs' zs'
            ((ih (sizeOf x) hsx).1 x y z (le_refl _) hxy hyz)
            ((ih (sizeOf xs') hsxs).2 xs' ys' zs' (le_refl _) hl' hl2)

/-- Structural equivalence is transitive. -/
theorem jequiv_trans (a b c : Json) (h1 : JEquiv a b) (h2 : JEquiv b c) : JEquiv a c :=
  (jequiv_trans_aux (sizeOf a)).1 a b c (le_refl _) h1 h2

/-- Size-bounded congruence of canonicalization along structural
equivalence. -/
theorem canonEq_aux : ∀ (n : Nat),
    (∀ a b, sizeOf a ≤ n → jwf a = true → jwf b = true → JEquiv a b →
      canon a = canon b) ∧
    (∀ xs ys, sizeOf xs ≤ n → jwfList xs = true → jwfList ys = true →
      JListEquiv xs ys → canonList xs = canonList ys) := by
  intro n
  induction n using Nat.strong_induction_on with
  | _ n ih =>
    constructor
    · intro a b hle hwa hwb h
      cases h with
      | null => rfl
      | bool b => rfl
      | num m => rfl
      | str s => rfl
      | arr xs ys hl =>
        have hs : sizeOf xs < n := by
          have : sizeOf xs < sizeOf (Json.arr xs) := by simp <;> omega
          omega
        exact congrArg Json.arr ((ih (sizeOf xs) hs).2 xs ys (le_refl _) hwa hwb hl)
      | obj oa ob hiff hvals =>
        have hA := jwf_obj_parts oa hwa
        have hB := jwf_obj_parts ob hwb
        show Json.obj (jobj (sortPairs (canonObj oa).toPairs)) =
          Json.obj (jobj (sortPairs (canonObj ob).toPairs))
        refine congrArg Json.obj (congrArg jobj (sortPairs_eq_of_perm _ _ ?_ ?_))
        · refine perm_of_pairsLookup_eq _ _ ?_ ?_ ?_
          · rw [map_fst_toPairs, canonObj_keys]
            exact hA.1
          · rw [map_fst_toPairs, canonObj_keys]
            exact hB.1
          · intro k
            rw [pairsLookup_toPairs, pairsLookup_toPairs, canonObj_lookup, canonObj_lookup]
            cases hv : oa.lookup k with
            | none =>
              have hb : ob.lookup k = none := by
                cases hbk : ob.lookup k with
                | none => rfl
                | some w => exact absurd ((hiff k).mpr (by simp [hbk])) (by simp [hv])
              rw [hb]
            | some v =>
              have hbs : (ob.lookup k).isSome := (hiff k).mp (by simp [hv])
              obtain ⟨w, hw⟩ := Option.isSome_iff_exists.mp hbs
              rw [hw]
              have hsv : sizeOf v < n := by
                have h1 := lookup_sizeOf oa k v hv
                have : sizeOf oa < sizeOf (Json.obj oa) := by simp <;> omega
                omega
              have hwv : jwf v = true := jwfObj_lookup oa k v hA.2 hv
              have hww : jwf w = true := jwfObj_lookup ob k w hB.2 hw
              show some (canon v) = some (canon w)
              exact congrArg some
                ((ih (sizeOf v) hsv).1 v w (le_refl _) hwv hww (hvals k v w hv hw))
        · rw [map_fst_toPairs, canonObj_keys]
          exact hA.1
    · intro xs ys hle hwxs hwys hl
      cases hl with
      | nil => rfl
      | cons x y xs' ys' hxy hl' =>
        simp only [jwfList, Bool.and_eq_true] at hwxs hwys
        have hsx : sizeOf x < n := by
          have : sizeOf x < sizeOf (JsonList.cons x xs') := by simp <;> omega
          omega
        have hsxs : sizeOf xs' < n := by
          have : sizeOf xs' < sizeOf (JsonList.cons x xs') := by simp <;> omega
          omega
        show JsonList.cons (canon x) (canonList xs') = JsonList.cons (canon y) (canonList ys')
        rw [(ih (sizeOf x) hsx).1 x y (le_refl _) hwxs.1 hwys.1 hxy,
          (ih (sizeOf xs') hsxs).2 xs' ys' (le_refl _) hwxs.2 hwys.2 hl']

/-- C7: on well-formed values (distinct keys at every object level, true of
everything a JavaScript object can hold), the canonical fingerprint
identifies exactly the values that differ only by object-key re-ordering at
any depth: `canon` images coincide iff the values are structurally
equivalent — so any primitive difference, or any difference in array element
order, changes the fingerprint, while rebuilding objects with re-ordered
keys never does.  Equality of the canonical values is equality of the
serialized canonical strings, `JSON.stringify` being injective and
deterministic on JSON values; the serialized form of the equivalence is the
second conjunct. -/
theorem c7_canonical_fingerprint (j j' : Json) (hw : jwf j = true) (hw' : jwf j' = true) :
    (canon j = canon j' ↔ JEquiv j j') ∧
    (JEquiv j j' → toCanonicalJson j = toCanonicalJson j') := by
  have hm : canon j = canon j' ↔ JEquiv j j' := by
    constructor
    · intro h
      exact jequiv_trans _ _ _ (h ▸ jequiv_canon j hw) (jequiv_symm _ _ (jequiv_canon j' hw'))
    · intro h
      exact (canonEq_aux (sizeOf j)).1 j j' (le_refl _) hw hw' h
  exact ⟨hm, fun h => congrArg stringifyJson (hm.mpr h)⟩

/-- Witness for `c7_canonical_fingerprint`: two objects differing only in
key order have equal fingerprints, hence are structurally equivalent. -/
theorem c7_canonical_fingerprint_witness :
    JEquiv (.obj (.cons "a" (.num 1) (.cons "b" (.str "x") .nil)))
      (.obj (.cons "b" (.str "x") (.cons "a" (.num 1) .nil))) :=
  ((c7_canonical_fingerprint
    (.obj (.cons "a" (.num 1) (.cons "b" (.str "x") .nil)))
    (.obj (.cons "b" (.str "x") (.cons "a" (.num 1) .nil)))
    (by decide) (by decide)).1).mp (by decide)
